import Mathlib

/-!
Verification development for the MiraETS entity-component runtime.

Shallow embedding of the core store (`ComponentMask.hpp`, `SparseSet.hpp`,
`World.hpp` / `World.cpp`) and of the Kahn-layered dependency scheduler
(`SystemScheduler.cpp`).  Machine integers are modelled as `Nat` with the
truncations of the source written out explicitly (`% 2^32` for the
`uint32_t` casts); fixed-size containers are modelled as lists or as total
functions where the source's lazily allocated pages read as null.
-/

set_option maxHeartbeats 1000000

/-! ### Entity identifiers (`SparseSet.hpp`, namespace `Internal`)

An `EntityID` is a `uint64_t`; the low 32 bits are the slot index, the high
32 bits the generation.  `GetIndex` is `entity & 0xFFFFFFFF`, i.e. `% 2^32`;
`GetGeneration` is the `uint32_t` cast of `entity >> 32`, i.e.
`(e / 2^32) % 2^32`.  Identifiers coming from the C++ API are `< 2^64`;
theorems carry that bound explicitly where it matters. -/

def eIndex (e : Nat) : Nat := e % 2 ^ 32

def eGen (e : Nat) : Nat := (e / 2 ^ 32) % 2 ^ 32

/-- `(generation << 32) | index` for `index < 2^32`: the two halves occupy
disjoint bit ranges, so the bitwise-or of the source is plain addition. -/
def mkEntity (g i : Nat) : Nat := g * 2 ^ 32 + i

def maskTest (m bit : Nat) : Bool := if bit < 256 then m.testBit bit else false

def maskSet (m bit : Nat) : Nat := if bit < 256 then m ||| (1 <<< bit) else m

def maskReset (m bit : Nat) : Nat :=
  if bit < 256 then m &&& ((2 ^ 256 - 1) ^^^ (1 <<< bit)) else m

def maskContains (m o : Nat) : Bool := (m &&& o) == o

def maskBits (m : Nat) : List Nat := (List.range 256).filter (fun b => m.testBit b)

structure SparseSet (α : Type) where
  DenseData : List α
  DenseToEntity : List Nat
  Sparse : Nat → Option Nat

def SparseSet.empty {α : Type} : SparseSet α := ⟨[], [], fun _ => none⟩

/-- `SparseSet::Insert`: if the sparse slot for `entity`'s index is occupied,
overwrite `data[i]` and refresh `entities[i] = entity`; otherwise append to
both dense vectors and record the new dense index (`m_DenseData.size()`). -/
def SparseSet.Insert {α : Type} (s : SparseSet α) (entity : Nat) (v : α) : SparseSet α :=
  match s.Sparse (eIndex entity) with
  | some denseIndex =>
      { s with
        DenseData := s.DenseData.set denseIndex v
        DenseToEntity := s.DenseToEntity.set denseIndex entity }
  | none =>
      { DenseData := s.DenseData ++ [v]
        DenseToEntity := s.DenseToEntity ++ [entity]
        Sparse := fun j => if j = eIndex entity then some s.DenseData.length else s.Sparse j }

/-- `SparseSet::Remove`: early-out if the slot is null or the stored
identifier differs from `entity` (full 64-bit equality — this is the
stale-identifier rejection); otherwise swap the last dense entry into the
hole, fix the moved entry's sparse slot, pop both vectors, null the slot. -/
def SparseSet.Remove {α : Type} [Inhabited α] (s : SparseSet α) (entity : Nat) : SparseSet α :=
  match s.Sparse (eIndex entity) with
  | none => s
  | some denseIndexToRemove =>
      if s.DenseToEntity.getD denseIndexToRemove 0 ≠ entity then s
      else
        -- `lastDenseIndex := m_DenseData.size() - 1`; on `i != last` the last
        -- dense entry is moved into the hole and its sparse slot repointed,
        -- then both vectors pop and the removed index's slot is nulled.
        let s1 :=
          if denseIndexToRemove ≠ s.DenseData.length - 1 then
            { s with
              DenseData := s.DenseData.set denseIndexToRemove
                (s.DenseData.getD (s.DenseData.length - 1) default)
              DenseToEntity := s.DenseToEntity.set denseIndexToRemove
                (s.DenseToEntity.getD (s.DenseData.length - 1) 0)
              Sparse := fun j =>
                if j = eIndex (s.DenseToEntity.getD (s.DenseData.length - 1) 0)
                then some denseIndexToRemove
                else s.Sparse j }
          else s
        { DenseData := s1.DenseData.dropLast
          DenseToEntity := s1.DenseToEntity.dropLast
          Sparse := fun j => if j = eIndex entity then none else s1.Sparse j }

/-- `SparseSet::Contains`: slot non-null and stored identifier equal
(generation included). -/
def SparseSet.Contains {α : Type} (s : SparseSet α) (entity : Nat) : Bool :=
  match s.Sparse (eIndex entity) with
  | none => false
  | some denseIndex => s.DenseToEntity.getD denseIndex 0 == entity

/-- `SparseSet::Get`: `m_DenseData[sparse slot]` (precondition `Contains`,
debug-asserted in the source). -/
def SparseSet.Get {α : Type} [Inhabited α] (s : SparseSet α) (entity : Nat) : α :=
  match s.Sparse (eIndex entity) with
  | some denseIndex => s.DenseData.getD denseIndex default
  | none => default

/-- `SparseSet::Size` (`m_DenseData.size()`). -/
def SparseSet.Size {α : Type} (s : SparseSet α) : Nat := s.DenseData.length

/-- Well-formedness of a sparse set: the parallel vectors have equal length,
each non-null sparse slot points at an in-range row whose identifier has that
slot's index, and each row's sparse slot points back at it. -/
structure SparseSet.WF {α : Type} (s : SparseSet α) : Prop where
  lenEq : s.DenseData.length = s.DenseToEntity.length
  sparseValid : ∀ j d, s.Sparse j = some d →
    d < s.DenseToEntity.length ∧ eIndex (s.DenseToEntity.getD d 0) = j
  rowBack : ∀ i, i < s.DenseToEntity.length →
    s.Sparse (eIndex (s.DenseToEntity.getD i 0)) = some i

inductive SOp (α : Type) where
  | ins (e : Nat) (v : α)
  | del (e : Nat)

def applySOp {α : Type} [Inhabited α] (s : SparseSet α) : SOp α → SparseSet α
  | .ins e v => s.Insert e v
  | .del e => s.Remove e

def applySOps {α : Type} [Inhabited α] (s : SparseSet α) (ops : List (SOp α)) : SparseSet α :=
  ops.foldl applySOp s

def lastInsertAt {α : Type} (ops : List (SOp α)) (j : Nat) : Option Nat :=
  ops.foldl
    (fun acc op =>
      match op with
      | .ins e _ => if eIndex e = j then some e else acc
      | .del _ => acc)
    none

inductive ComponentEvent where
  | Added
  | Removed
  | Modified
deriving DecidableEq

/-- An event dispatch: (component id, event kind, entity id). -/
abbrev Ev := Nat × ComponentEvent × Nat

/-- `resize(n)` on a default-initialised vector, in the grow direction (the
source only resizes these vectors when the requested size exceeds the current
one). -/
def resizeD {α : Type} (l : List α) (n : Nat) (d : α) : List α :=
  if n ≤ l.length then l else l ++ List.replicate (n - l.length) d

/-- `if (i >= v.size()) v.resize(i + 1); v[i] = <installed>` on a vector of
pointers/closures, tracked as presence flags. -/
def installAt (l : List Bool) (i : Nat) : List Bool := (resizeD l (i + 1) false).set i true

structure World where
  StoresByID : List Bool
  ComponentStores : Nat → Option (SparseSet Nat)
  SignalsInstalled : Nat → Bool
  OnRemovedTriggers : List Bool
  EntitySignatures : List Nat
  EntityGenerations : List Nat
  FreeEntities : List Nat

def World.empty : World :=
  { StoresByID := []
    ComponentStores := fun _ => none
    SignalsInstalled := fun _ => false
    OnRemovedTriggers := []
    EntitySignatures := []
    EntityGenerations := []
    FreeEntities := [] }

/-- `GetStore<T>()` as a read: the existing store, or a fresh empty one. -/
def storeOf (w : World) (c : Nat) : SparseSet Nat := (w.ComponentStores c).getD SparseSet.empty

/-- Writing back through the `m_ComponentStores` handle for component id `c`
(the store object the maps share). -/
def setStore (w : World) (c : Nat) (t : SparseSet Nat) : Nat → Option (SparseSet Nat) :=
  fun x => if x = c then some t else w.ComponentStores x

/-- `World::HasComponent<T>`: pure signature test, index half only. -/
def World.HasComponent (w : World) (c : Nat) (id : Nat) : Bool :=
  if w.EntitySignatures.length ≤ eIndex id then false
  else maskTest (w.EntitySignatures.getD (eIndex id) 0) c

/-- `World::IsAlive`. -/
def World.IsAlive (w : World) (id : Nat) : Bool :=
  decide (eIndex id < w.EntitySignatures.length) &&
    (w.EntityGenerations.getD (eIndex id) 0 == eGen id)

/-- `World::AddComponent<T>`: grow the signature vector if needed, insert
into the store, set the signature bit, install the `m_StoresByID` pointer and
the Removed trigger, fire `Added` (dispatched only if an observer block
exists). -/
def World.AddComponent (w : World) (c id v : Nat) : World × List Ev :=
  let sigs := resizeD w.EntitySignatures (eIndex id + 1) 0
  ({ w with
      ComponentStores := setStore w c ((storeOf w c).Insert id v)
      EntitySignatures := sigs.set (eIndex id) (maskSet (sigs.getD (eIndex id) 0) c)
      StoresByID := installAt w.StoresByID c
      OnRemovedTriggers := installAt w.OnRemovedTriggers c },
   if w.SignalsInstalled c then [(c, ComponentEvent.Added, id)] else [])

/-- `World::RemoveComponent<T>`: if in range and the signature bit is set,
fire `Removed` (value still present), remove from the store, clear the bit. -/
def World.RemoveComponent (w : World) (c id : Nat) : World × List Ev :=
  if decide (eIndex id < w.EntitySignatures.length) && w.HasComponent c id then
    ({ w with
        ComponentStores := setStore w c ((storeOf w c).Remove id)
        EntitySignatures := w.EntitySignatures.set (eIndex id)
          (maskReset (w.EntitySignatures.getD (eIndex id) 0) c) },
     if w.SignalsInstalled c then [(c, ComponentEvent.Removed, id)] else [])
  else (w, [])

/-- `World::GetComponent<T>` (value read). -/
def World.GetComponent (w : World) (c id : Nat) : Nat := (storeOf w c).Get id

/-- `World::PatchComponent<T>`: if present, mutate the stored value in place
through the reference `GetComponent` returns, then fire `Modified`. -/
def World.PatchComponent (w : World) (c id : Nat) (f : Nat → Nat) : World × List Ev :=
  if w.HasComponent c id then
    ({ w with
        ComponentStores := setStore w c
          (match (storeOf w c).Sparse (eIndex id) with
            | some d =>
                { storeOf w c with
                  DenseData := (storeOf w c).DenseData.set d
                    (f ((storeOf w c).DenseData.getD d 0)) }
            | none => storeOf w c) },
     if w.SignalsInstalled c then [(c, ComponentEvent.Modified, id)] else [])
  else (w, [])

/-- `World::OnEvent<T>`: `EnsureSignalStorage<T>` installs the Removed
trigger, `GetSignals<T>` creates the observer block, the callback is appended
to one of its lists. -/
def World.OnEvent (w : World) (c : Nat) : World :=
  { w with
    OnRemovedTriggers := installAt w.OnRemovedTriggers c
    SignalsInstalled := fun x => if x = c then true else w.SignalsInstalled x }

/-- `World::CreateEntity()`: pop the free list (the returned identifier takes
the *current* generation of the slot), or append a fresh slot with
signature 0 and generation 0. -/
def World.CreateEntity (w : World) : World × Nat :=
  match w.FreeEntities.getLast? with
  | some id =>
      ({ w with FreeEntities := w.FreeEntities.dropLast },
        mkEntity (w.EntityGenerations.getD (eIndex id) 0) (eIndex id))
  | none =>
      ({ w with
          EntitySignatures := w.EntitySignatures ++ [0]
          EntityGenerations := w.EntityGenerations ++ [0] },
        w.EntitySignatures.length)

/-- The drain loop of `CreateEntitiesBulk`: `while (count > 0 &&
!m_FreeEntities.empty()) { entities.push_back(CreateEntity()); count--; }` -/
def World.createLoop : World → Nat → World × List Nat
  | w, 0 => (w, [])
  | w, Nat.succ n =>
      if w.FreeEntities.isEmpty then (w, [])
      else
        let p := w.CreateEntity
        let q := World.createLoop p.1 n
        (q.1, p.2 :: q.2)

/-- `World::CreateEntitiesBulk`: drain the free list, then extend both
vectors by the remainder and return the fresh indices (generation 0). -/
def World.CreateEntitiesBulk (w : World) (count : Nat) : World × List Nat :=
  let p := World.createLoop w count
  if count - p.2.length = 0 then p
  else
    ({ p.1 with
        EntitySignatures := p.1.EntitySignatures ++
          List.replicate (count - p.2.length) 0
        EntityGenerations := p.1.EntityGenerations ++
          List.replicate (count - p.2.length) 0 },
      p.2 ++ (List.range (count - p.2.length)).map
        (fun i => p.1.EntitySignatures.length + i))

/-- `World::CreateEntity(EntityID)`: grow both vectors to `index + 1` if
needed; if the identifier is then alive, return; otherwise erase same-index
free-list entries, install the given generation, clear the signature. -/
def World.CreateEntityWithID (w : World) (id : Nat) : World :=
  let w1 :=
    if w.EntitySignatures.length ≤ eIndex id then
      { w with
        EntitySignatures := resizeD w.EntitySignatures (eIndex id + 1) 0
        EntityGenerations := resizeD w.EntityGenerations (eIndex id + 1) 0 }
    else w
  if w1.IsAlive id then w1
  else
    { w1 with
      FreeEntities := w1.FreeEntities.filter (fun eid => !(eIndex eid == eIndex id))
      EntityGenerations := w1.EntityGenerations.set (eIndex id) (eGen id)
      EntitySignatures := w1.EntitySignatures.set (eIndex id) 0 }

/-- The store-removal loop of `DestroyEntity`: for each set bit `i` (in
ascending order), `m_StoresByID[i]->Remove(id)` when the pointer is
installed. -/
def removeStores (w : World) (id : Nat) (l : List Nat)
    (g : Nat → Option (SparseSet Nat)) : Nat → Option (SparseSet Nat) :=
  l.foldl
    (fun cs i =>
      if w.StoresByID.getD i false then
        fun x => if x = i then Option.map (fun s => s.Remove id) (cs i) else cs x
      else cs)
    g

/-- `World::DestroyEntity`: if alive, walk the set signature bits in
ascending order firing the Removed trigger (dispatched when an observer
block exists) and removing from the id-indexed store; then reset the
signature, bump the generation (`uint32_t`), and push
`(newGen << 32) | index` on the free list. -/
def World.DestroyEntity (w : World) (id : Nat) : World × List Ev :=
  if w.IsAlive id then
    ({ w with
        ComponentStores :=
          removeStores w id (maskBits (w.EntitySignatures.getD (eIndex id) 0))
            w.ComponentStores
        EntitySignatures := w.EntitySignatures.set (eIndex id) 0
        EntityGenerations := w.EntityGenerations.set (eIndex id)
          ((w.EntityGenerations.getD (eIndex id) 0 + 1) % 2 ^ 32)
        FreeEntities := w.FreeEntities ++
          [mkEntity ((w.EntityGenerations.getD (eIndex id) 0 + 1) % 2 ^ 32) (eIndex id)] },
     (maskBits (w.EntitySignatures.getD (eIndex id) 0)).filterMap
       (fun i =>
         if w.OnRemovedTriggers.getD i false && w.SignalsInstalled i then
           some (i, ComponentEvent.Removed, id)
         else none))
  else (w, [])

structure WInv (w : World) : Prop where
  lenGen : w.EntityGenerations.length = w.EntitySignatures.length
  lenLt : w.EntitySignatures.length ≤ 2 ^ 32
  sigLt : ∀ m ∈ w.EntitySignatures, m < 2 ^ 256
  genLt : ∀ g ∈ w.EntityGenerations, g < 2 ^ 32
  freeIdx : ∀ f ∈ w.FreeEntities, eIndex f < w.EntitySignatures.length
  storesWF : ∀ c s, w.ComponentStores c = some s → s.WF
  bitInstalled : ∀ i c, i < w.EntitySignatures.length →
    maskTest (w.EntitySignatures.getD i 0) c = true →
    w.StoresByID.getD c false = true ∧ w.OnRemovedTriggers.getD c false = true
  main : ∀ c e, e < 2 ^ 64 → w.IsAlive e = true →
    (maskTest (w.EntitySignatures.getD (eIndex e) 0) c = true ↔
      (storeOf w c).Contains e = true)
  rowsAlive : ∀ c e, (storeOf w c).Contains e = true →
    w.IsAlive e = true ∧ e < 2 ^ 64

/-- Disciplined reachability: the world is built from the empty `World` by
public operations used within their design envelope — component mutators get
identifiers that are alive `uint64_t`s, component ids stay below the 256-bit
signature capacity, and the slot count stays below `2^32`
(`CreateEntity(EntityID)` is the deserialization path and is treated
separately; see the claims on it). -/
inductive DReach : World → Prop where
  | empty : DReach World.empty
  | create {w : World} : DReach w → w.EntitySignatures.length < 2 ^ 32 →
      DReach (w.CreateEntity).1
  | createBulk {w : World} {n : Nat} : DReach w →
      w.EntitySignatures.length + n ≤ 2 ^ 32 → DReach (w.CreateEntitiesBulk n).1
  | destroy {w : World} {e : Nat} : DReach w → e < 2 ^ 64 → DReach (w.DestroyEntity e).1
  | add {w : World} {c e : Nat} (v : Nat) : DReach w → c < 256 → e < 2 ^ 64 →
      w.IsAlive e = true → DReach (w.AddComponent c e v).1
  | remove {w : World} {c e : Nat} : DReach w → e < 2 ^ 64 → w.IsAlive e = true →
      DReach (w.RemoveComponent c e).1
  | onEvent {w : World} {c : Nat} : DReach w → DReach (w.OnEvent c)
  | patch {w : World} {c e : Nat} {f : Nat → Nat} : DReach w →
      DReach (w.PatchComponent c e f).1

def queryMask (cs : List Nat) : Nat := cs.foldl maskSet 0

def findSmallestStep (sizes : List Nat) (acc : Option (Nat × Nat)) (i : Nat) :
    Option (Nat × Nat) :=
  match acc with
  | none => some (sizes.getD i 0, i)
  | some (m, b) => if sizes.getD i 0 < m then some (sizes.getD i 0, i) else some (m, b)

def findSmallest (sizes : List Nat) : Option (Nat × Nat) :=
  (List.range sizes.length).foldl (findSmallestStep sizes) none

def visitedVia (w : World) (cs : List Nat) (c : Nat) : List Nat :=
  (storeOf w c).DenseToEntity.filter
    (fun e => maskContains (w.EntitySignatures.getD (eIndex e) 0) (queryMask cs))

def ViewEach (w : World) (cs : List Nat) : List Nat :=
  if cs.isEmpty then []
  else
    match findSmallest (cs.map (fun c => (storeOf w c).Size)) with
    | none => []
    | some p => visitedVia w cs (cs.getD p.2 0)

abbrev SGraph := List (Nat × List Nat)

def keys (g : SGraph) : List Nat := g.map Prod.fst

def depsOf (g : SGraph) (n : Nat) : List Nat :=
  match g.find? (fun p => p.1 == n) with
  | some p => p.2
  | none => []

def kahnStep (g : SGraph) (acc : List Nat) : List Nat :=
  (keys g).filter
    (fun n => !(acc.contains n) && (depsOf g n).all (fun d => acc.contains d))

def kahnRun (g : SGraph) : Nat → List Nat → List (List Nat)
  | 0, _ => []
  | fuel + 1, acc =>
      let b := kahnStep g acc
      if b.isEmpty then [] else b :: kahnRun g fuel (acc ++ b)

def RebuildGraph (g : SGraph) : List (List Nat) := kahnRun g (g.length + 1) []

def RunGraph (g : SGraph) : Option (List (List Nat)) :=
  if ((RebuildGraph g).map List.length).sum < (keys g).length then none
  else some (RebuildGraph g)

/-- The systems a `RunGraph` call executes, in order: none at all when the
cycle error is thrown. -/
def executedSystems (g : SGraph) : List Nat :=
  match RunGraph g with
  | none => []
  | some bs => bs.flatten

/-- `a → b`: node `b` depends on node `a`. -/
def Edge (g : SGraph) (a b : Nat) : Prop :=
  a ∈ keys g ∧ b ∈ keys g ∧ a ∈ depsOf g b

def HasCycle (g : SGraph) : Prop := ∃ n, Relation.TransGen (Edge g) n n

def HasMissingDep (g : SGraph) : Prop := ∃ n ∈ keys g, ∃ d ∈ depsOf g n, d ∉ keys g

inductive Layered (g : SGraph) : List Nat → List (List Nat) → Prop where
  | nil {acc : List Nat} : Layered g acc []
  | cons {acc : List Nat} {b : List Nat} {bs : List (List Nat)} :
      (∀ n ∈ b, n ∈ keys g ∧ n ∉ acc ∧ ∀ d ∈ depsOf g n, d ∈ acc) →
      b.Nodup →
      Layered g (acc ++ b) bs →
      Layered g acc (b :: bs)

def C1world : World := ((World.empty.CreateEntity).1.AddComponent 0 0 5).1

def C2world : World := ((World.empty.CreateEntity).1.AddComponent 0 0 5).1

def C3world : World :=
  (((((World.empty.CreateEntity).1.OnEvent 0).OnEvent 1).AddComponent 0 0
    5).1.AddComponent 1 0 7).1

def C4world : World := ((World.empty.CreateEntity).1.AddComponent 256 0 7).1

def C7world : World := (((World.empty.CreateEntity).1.OnEvent 0).AddComponent 0 0 5).1

def C10world : World := (World.empty.CreateEntity).1

/-! ### Theorems -/

theorem eIndex_lt (e : Nat) : eIndex e < 2 ^ 32 := Nat.mod_lt _ (by norm_num)

theorem eIndex_mkEntity (g i : Nat) (hi : i < 2 ^ 32) : eIndex (mkEntity g i) = i := by
  simp only [eIndex, mkEntity]
  omega

theorem eGen_mkEntity (g i : Nat) (hg : g < 2 ^ 32) (hi : i < 2 ^ 32) :
    eGen (mkEntity g i) = g := by
  simp only [eGen, mkEntity]
  omega

theorem eq_of_eIndex_eGen (e e' : Nat) (he : e < 2 ^ 64) (he' : e' < 2 ^ 64)
    (h1 : eIndex e = eIndex e') (h2 : eGen e = eGen e') : e = e' := by
  have d1 : e / 2 ^ 32 < 2 ^ 32 := by
    apply Nat.div_lt_of_lt_mul; norm_num at he ⊢; omega
  have d2 : e' / 2 ^ 32 < 2 ^ 32 := by
    apply Nat.div_lt_of_lt_mul; norm_num at he' ⊢; omega
  have g1 : eGen e = e / 2 ^ 32 := Nat.mod_eq_of_lt d1
  have g2 : eGen e' = e' / 2 ^ 32 := Nat.mod_eq_of_lt d2
  have := Nat.div_add_mod e (2 ^ 32)
  have := Nat.div_add_mod e' (2 ^ 32)
  simp only [eIndex] at h1
  omega

/-! ### ComponentMask (`ComponentMask.hpp`)

The mask is four `uint64_t` words, i.e. a 256-bit integer: bit `b` lives in
word `b / 64` at position `b % 64`, so the four-word state is exactly the
binary representation of one `Nat < 2^256`.  `Set`/`Reset`/`Test` guard
`bit < 256` and are silent no-ops / `false` out of range.  `Contains` is the
word-by-word `(self & other) == other`, which on the concatenated value is
`(m &&& o) == o` (bitwise-and acts wordwise).  `ForEachSetBit` walks the
words in order, clearing the lowest set bit each time (count-trailing-zeros),
hence visits exactly the set bits in ascending order: `maskBits`. -/

theorem maskSet_testBit (m b c : Nat) (hb : b < 256) :
    (maskSet m b).testBit c = (m.testBit c || decide (b = c)) := by
  simp [maskSet, hb, Nat.testBit_or, Nat.one_shiftLeft, Nat.testBit_two_pow]

theorem maskSet_testBit_self (m b : Nat) (hb : b < 256) :
    (maskSet m b).testBit b = true := by
  simp [maskSet_testBit m b b hb]

theorem maskSet_testBit_ne (m b c : Nat) (hb : b < 256) (hne : b ≠ c) :
    (maskSet m b).testBit c = m.testBit c := by
  simp [maskSet_testBit m b c hb, hne]

theorem maskReset_testBit (m b c : Nat) (hb : b < 256) :
    (maskReset m b).testBit c = (m.testBit c && !decide (b = c) && decide (c < 256)) := by
  simp only [maskReset, if_pos hb, Nat.testBit_and, Nat.testBit_xor, Nat.one_shiftLeft,
    Nat.testBit_two_pow_sub_one, Nat.testBit_two_pow]
  rcases Nat.lt_or_ge c 256 with hc | hc
  · rcases eq_or_ne b c with rfl | hne <;> simp_all
  · have hbc : ¬ b = c := by omega
    simp [hbc, Nat.not_lt.mpr hc]

theorem maskTest_eq_testBit (m c : Nat) (hm : m < 2 ^ 256) : maskTest m c = m.testBit c := by
  unfold maskTest
  rcases Nat.lt_or_ge c 256 with hc | hc
  · simp [hc]
  · have : m < 2 ^ c := Nat.lt_of_lt_of_le hm (Nat.pow_le_pow_right (by norm_num) hc)
    simp [Nat.not_lt.mpr hc, (Nat.testBit_lt_two_pow this).symm]

theorem testBit_lt_of_lt (m c : Nat) (hm : m < 2 ^ 256) (h : m.testBit c = true) : c < 256 := by
  by_contra hc
  have : m < 2 ^ c :=
    Nat.lt_of_lt_of_le hm (Nat.pow_le_pow_right (by norm_num) (Nat.not_lt.mp hc))
  rw [Nat.testBit_lt_two_pow this] at h
  exact Bool.false_ne_true h

theorem maskSet_lt (m b : Nat) (hm : m < 2 ^ 256) : maskSet m b < 2 ^ 256 := by
  unfold maskSet
  split
  · exact Nat.or_lt_two_pow hm (by
      rw [Nat.one_shiftLeft]
      exact Nat.pow_lt_pow_right (by norm_num) (by assumption))
  · exact hm

theorem maskReset_lt (m b : Nat) (hm : m < 2 ^ 256) : maskReset m b < 2 ^ 256 := by
  unfold maskReset
  split
  · exact Nat.lt_of_le_of_lt Nat.and_le_left hm
  · exact hm

theorem maskContains_iff (m o : Nat) :
    maskContains m o = true ↔ ∀ b, o.testBit b = true → m.testBit b = true := by
  unfold maskContains
  rw [beq_iff_eq]
  constructor
  · intro h b hb
    have := congrArg (fun x => x.testBit b) h
    simp only [Nat.testBit_and, hb, Bool.and_true] at this
    exact this
  · intro h
    apply Nat.eq_of_testBit_eq
    intro i
    rw [Nat.testBit_and]
    cases ho : o.testBit i
    · simp
    · simp [h i ho]

theorem mem_maskBits (m b : Nat) : b ∈ maskBits m ↔ b < 256 ∧ m.testBit b = true := by
  simp [maskBits, List.mem_filter, List.mem_range]

theorem maskBits_pairwise (m : Nat) : List.Pairwise (· < ·) (maskBits m) :=
  (List.pairwise_lt_range 256).filter _

theorem maskBits_nodup (m : Nat) : (maskBits m).Nodup :=
  (maskBits_pairwise m).imp Nat.ne_of_lt

theorem maskBits_zero : maskBits 0 = [] := by
  simp [maskBits, Nat.zero_testBit]

/-! ### List access helpers

`std::vector` indexing is modelled with `List.getD`; these lemmas package the
interactions with `set`, `++`, `replicate` and `dropLast` used throughout. -/

theorem getD_set_self {α : Type} (l : List α) (i : Nat) (v d : α) (h : i < l.length) :
    (l.set i v).getD i d = v := by
  rw [List.getD_eq_getElem?_getD, List.getElem?_set_self h]
  rfl

theorem getD_set_ne {α : Type} (l : List α) (i j : Nat) (v d : α) (h : i ≠ j) :
    (l.set i v).getD j d = l.getD j d := by
  rw [List.getD_eq_getElem?_getD, List.getElem?_set_ne h, ← List.getD_eq_getElem?_getD]

theorem getD_append_left {α : Type} (l l' : List α) (j : Nat) (d : α) (h : j < l.length) :
    (l ++ l').getD j d = l.getD j d := by
  rw [List.getD_eq_getElem?_getD, List.getElem?_append_left h, ← List.getD_eq_getElem?_getD]

theorem getD_append_right {α : Type} (l l' : List α) (j : Nat) (d : α) (h : l.length ≤ j) :
    (l ++ l').getD j d = l'.getD (j - l.length) d := by
  rw [List.getD_eq_getElem?_getD, List.getElem?_append_right h, ← List.getD_eq_getElem?_getD]

theorem getD_replicate {α : Type} (n j : Nat) (a d : α) (h : j < n) :
    (List.replicate n a).getD j d = a := by
  rw [List.getD_eq_getElem?_getD, List.getElem?_replicate, if_pos h]
  rfl

theorem getD_dropLast {α : Type} (l : List α) (j : Nat) (d : α) (h : j < l.length - 1) :
    l.dropLast.getD j d = l.getD j d := by
  have hj : j < l.dropLast.length := by rw [List.length_dropLast]; exact h
  have hj' : j < l.length := by omega
  rw [List.getD_eq_getElem (_) _ hj, List.getD_eq_getElem (_) _ hj', List.getElem_dropLast]

theorem getD_mem {α : Type} (l : List α) (j : Nat) (d : α) (h : j < l.length) :
    l.getD j d ∈ l := by
  rw [List.getD_eq_getElem (_) _ h]
  exact List.getElem_mem h

theorem getD_oob {α : Type} (l : List α) (j : Nat) (d : α) (h : l.length ≤ j) :
    l.getD j d = d := by
  rw [List.getD_eq_getElem?_getD, List.getElem?_eq_none h]
  rfl

/-! ### SparseSet (`SparseSet.hpp`)

`SparseSet<Component>` holds two parallel dense vectors `m_DenseData` and
`m_DenseToEntity` plus `m_SparsePages`, a vector of lazily allocated
4096-slot pages of `size_t`, null-filled on allocation, addressed by
`pageId = index / 4096` and `pageOffset = index % 4096`.  A slot holds either
a dense index or `k_NullIndex`.  Since an absent or unallocated page reads as
all-null and pages are only ever addressed through `index`, the paged array
is observationally a total map `Nat → Option Nat` from entity index to dense
index (`none` = `k_NullIndex`); that is how `Sparse` is modelled here. -/

theorem SparseSet.WF.empty {α : Type} : (SparseSet.empty (α := α)).WF := by
  constructor <;> simp [SparseSet.empty]

theorem SparseSet.Contains_iff {α : Type} (s : SparseSet α) (e : Nat) :
    s.Contains e = true ↔
      ∃ d, s.Sparse (eIndex e) = some d ∧ s.DenseToEntity.getD d 0 = e := by
  unfold SparseSet.Contains
  cases hs : s.Sparse (eIndex e) with
  | none => simp
  | some d =>
      simp only [beq_iff_eq]
      constructor
      · intro h
        exact ⟨d, rfl, h⟩
      · rintro ⟨d', hd', h⟩
        cases hd'
        exact h

theorem SparseSet.Remove_noop_nullSlot {α : Type} [Inhabited α] (s : SparseSet α) (e : Nat)
    (h : s.Sparse (eIndex e) = none) : s.Remove e = s := by
  unfold SparseSet.Remove
  rw [h]

theorem SparseSet.Remove_noop_stale {α : Type} [Inhabited α] (s : SparseSet α) (e d : Nat)
    (h : s.Sparse (eIndex e) = some d) (hne : s.DenseToEntity.getD d 0 ≠ e) :
    s.Remove e = s := by
  unfold SparseSet.Remove
  rw [h]
  dsimp only
  rw [if_pos hne]

theorem SparseSet.Remove_noop_of_not_contains {α : Type} [Inhabited α] (s : SparseSet α)
    (e : Nat) (h : ¬ s.Contains e = true) : s.Remove e = s := by
  cases hs : s.Sparse (eIndex e) with
  | none => exact s.Remove_noop_nullSlot e hs
  | some d =>
      apply s.Remove_noop_stale e d hs
      intro heq
      exact h ((s.Contains_iff e).mpr ⟨d, hs, heq⟩)

theorem SparseSet.Remove_eq_pop {α : Type} [Inhabited α] (s : SparseSet α) (e d : Nat)
    (hsp : s.Sparse (eIndex e) = some d) (heq : s.DenseToEntity.getD d 0 = e)
    (hd : d = s.DenseData.length - 1) :
    s.Remove e =
      { DenseData := s.DenseData.dropLast
        DenseToEntity := s.DenseToEntity.dropLast
        Sparse := fun j => if j = eIndex e then none else s.Sparse j } := by
  have h1 : ¬ (s.DenseToEntity.getD d 0 ≠ e) := fun hh => hh heq
  have h2 : ¬ (d ≠ s.DenseData.length - 1) := by simpa using hd
  unfold SparseSet.Remove
  rw [hsp]
  dsimp only
  rw [if_neg h1, if_neg h2]

theorem SparseSet.Remove_eq_swap {α : Type} [Inhabited α] (s : SparseSet α) (e d : Nat)
    (hsp : s.Sparse (eIndex e) = some d) (heq : s.DenseToEntity.getD d 0 = e)
    (hd : d ≠ s.DenseData.length - 1) :
    s.Remove e =
      { DenseData := (s.DenseData.set d
          (s.DenseData.getD (s.DenseData.length - 1) default)).dropLast
        DenseToEntity := (s.DenseToEntity.set d
          (s.DenseToEntity.getD (s.DenseData.length - 1) 0)).dropLast
        Sparse := fun j =>
          if j = eIndex e then none
          else if j = eIndex (s.DenseToEntity.getD (s.DenseData.length - 1) 0) then some d
          else s.Sparse j } := by
  have h1 : ¬ (s.DenseToEntity.getD d 0 ≠ e) := fun hh => hh heq
  unfold SparseSet.Remove
  rw [hsp]
  dsimp only
  rw [if_neg h1, if_pos hd]

theorem SparseSet.Insert_eq_overwrite {α : Type} (s : SparseSet α) (e : Nat) (v : α)
    (d : Nat) (hsp : s.Sparse (eIndex e) = some d) :
    s.Insert e v =
      { s with
        DenseData := s.DenseData.set d v
        DenseToEntity := s.DenseToEntity.set d e } := by
  unfold SparseSet.Insert
  rw [hsp]

theorem SparseSet.Insert_eq_push {α : Type} (s : SparseSet α) (e : Nat) (v : α)
    (hsp : s.Sparse (eIndex e) = none) :
    s.Insert e v =
      { DenseData := s.DenseData ++ [v]
        DenseToEntity := s.DenseToEntity ++ [e]
        Sparse := fun j => if j = eIndex e then some s.DenseData.length else s.Sparse j } := by
  unfold SparseSet.Insert
  rw [hsp]

theorem SparseSet.WF.Insert {α : Type} {s : SparseSet α} (hs : s.WF) (e : Nat) (v : α) :
    (s.Insert e v).WF := by
  unfold SparseSet.Insert
  cases hsp : s.Sparse (eIndex e) with
  | some d =>
      obtain ⟨hd, hidx⟩ := hs.sparseValid _ _ hsp
      dsimp only
      constructor
      · simpa using hs.lenEq
      · intro j d' hj
        dsimp only at hj
        obtain ⟨hd', hidx'⟩ := hs.sparseValid _ _ hj
        refine ⟨by simpa using hd', ?_⟩
        by_cases hdd : d = d'
        · subst hdd
          rw [getD_set_self _ _ _ _ hd]
          rw [← hidx', hidx]
        · rw [getD_set_ne _ _ _ _ _ hdd]
          exact hidx'
      · intro i hi
        simp only [List.length_set] at hi
        by_cases hdd : d = i
        · subst hdd
          rw [getD_set_self _ _ _ _ hd]
          exact hsp
        · rw [getD_set_ne _ _ _ _ _ hdd]
          exact hs.rowBack i hi
  | none =>
      dsimp only
      constructor
      · simp [hs.lenEq]
      · intro j d' hj
        dsimp only at hj
        by_cases hje : j = eIndex e
        · subst hje
          rw [if_pos rfl] at hj
          injection hj with hj
          subst hj
          refine ⟨by simp [hs.lenEq], ?_⟩
          rw [hs.lenEq, getD_append_right _ _ _ _ (Nat.le_refl _), Nat.sub_self]
          rfl
        · rw [if_neg hje] at hj
          obtain ⟨hd', hidx'⟩ := hs.sparseValid _ _ hj
          refine ⟨by simp; omega, ?_⟩
          rw [getD_append_left _ _ _ _ hd']
          exact hidx'
      · intro i hi
        simp only [List.length_append, List.length_singleton] at hi
        by_cases hi' : i < s.DenseToEntity.length
        · rw [getD_append_left _ _ _ _ hi']
          have hrb := hs.rowBack i hi'
          dsimp only
          rw [if_neg]
          · exact hrb
          · intro hje
            rw [hje] at hrb
            rw [hsp] at hrb
            exact Option.noConfusion hrb
        · have hieq : i = s.DenseToEntity.length := by omega
          subst hieq
          rw [getD_append_right _ _ _ _ (Nat.le_refl _), Nat.sub_self]
          have hsingle : (([e] : List Nat)).getD 0 0 = e := rfl
          dsimp only
          rw [hsingle, if_pos rfl, hs.lenEq]

theorem SparseSet.WF.Remove {α : Type} [Inhabited α] {s : SparseSet α} (hs : s.WF) (e : Nat) :
    (s.Remove e).WF := by
  by_cases hc : s.Contains e = true
  case neg =>
    rw [s.Remove_noop_of_not_contains e hc]
    exact hs
  case pos =>
  obtain ⟨d, hsp, heq⟩ := (s.Contains_iff e).mp hc
  obtain ⟨hd, hidx⟩ := hs.sparseValid _ _ hsp
  have hlE : s.DenseData.length = s.DenseToEntity.length := hs.lenEq
  have hlen0 : 0 < s.DenseToEntity.length := Nat.lt_of_le_of_lt (Nat.zero_le _) hd
  by_cases hdl : d = s.DenseData.length - 1
  · rw [s.Remove_eq_pop e d hsp heq hdl]
    constructor
    · simp [hs.lenEq]
    · intro j d' hj
      dsimp only at hj ⊢
      by_cases hje : j = eIndex e
      · rw [if_pos hje] at hj
        exact Option.noConfusion hj
      · rw [if_neg hje] at hj
        obtain ⟨hd', hidx'⟩ := hs.sparseValid _ _ hj
        have hned : d' ≠ d := by
          intro hdd
          subst hdd
          exact hje (by rw [← hidx', hidx])
        have hdlt : d' < s.DenseToEntity.length - 1 := by omega
        refine ⟨by simpa using hdlt, ?_⟩
        rw [getD_dropLast _ _ _ hdlt]
        exact hidx'
    · intro i hi
      simp only [List.length_dropLast] at hi
      rw [getD_dropLast _ _ _ hi]
      dsimp only
      have hrb := hs.rowBack i (by omega)
      rw [if_neg]
      · exact hrb
      · intro hje
        rw [hje, hsp] at hrb
        injection hrb with hrb
        omega
  · rw [s.Remove_eq_swap e d hsp heq hdl]
    have hlastlt : s.DenseData.length - 1 < s.DenseToEntity.length := by omega
    have hrbLast := hs.rowBack (s.DenseData.length - 1) hlastlt
    have hneIdx : eIndex (s.DenseToEntity.getD (s.DenseData.length - 1) 0) ≠ eIndex e := by
      intro hj
      rw [hj, hsp] at hrbLast
      injection hrbLast with hrbLast
      omega
    have hdlt : d < s.DenseToEntity.length - 1 := by omega
    constructor
    · simp [hs.lenEq]
    · intro j d' hj
      dsimp only at hj ⊢
      by_cases hje : j = eIndex e
      · rw [if_pos hje] at hj
        exact Option.noConfusion hj
      rw [if_neg hje] at hj
      by_cases hjl : j = eIndex (s.DenseToEntity.getD (s.DenseData.length - 1) 0)
      · rw [if_pos hjl] at hj
        injection hj with hj
        subst hj
        refine ⟨by simp only [List.length_dropLast, List.length_set]; omega, ?_⟩
        rw [getD_dropLast _ _ _ (by simp only [List.length_set]; omega),
          getD_set_self _ _ _ _ (by omega)]
        exact hjl.symm
      · rw [if_neg hjl] at hj
        obtain ⟨hd', hidx'⟩ := hs.sparseValid _ _ hj
        have hned : d' ≠ d := by
          intro hdd
          subst hdd
          exact hje (by rw [← hidx', hidx])
        have hnel : d' ≠ s.DenseData.length - 1 := by
          intro hdd
          subst hdd
          exact hjl hidx'.symm
        have hdlt' : d' < s.DenseToEntity.length - 1 := by omega
        refine ⟨by simp only [List.length_dropLast, List.length_set]; omega, ?_⟩
        rw [getD_dropLast _ _ _ (by simp only [List.length_set]; omega),
          getD_set_ne _ _ _ _ _ (Ne.symm hned)]
        exact hidx'
    · intro i hi
      simp only [List.length_dropLast, List.length_set] at hi
      dsimp only
      by_cases hdi : i = d
      · subst hdi
        rw [getD_dropLast _ _ _ (by simp only [List.length_set]; omega),
          getD_set_self _ _ _ _ (by omega)]
        rw [if_neg hneIdx, if_pos rfl]
      · rw [getD_dropLast _ _ _ (by simp only [List.length_set]; omega),
          getD_set_ne _ _ _ _ _ (fun hdd => hdi hdd.symm)]
        have hrb := hs.rowBack i (by omega)
        rw [if_neg, if_neg]
        · exact hrb
        · intro hje
          rw [hje] at hrb
          rw [hrbLast] at hrb
          injection hrb with hrb
          omega
        · intro hje
          rw [hje, hsp] at hrb
          injection hrb with hrb
          omega

theorem SparseSet.Insert_Contains {α : Type} {s : SparseSet α} (hs : s.WF) (e x : Nat) (v : α) :
    (s.Insert e v).Contains x = true ↔
      (x = e ∨ (s.Contains x = true ∧ eIndex x ≠ eIndex e)) := by
  unfold SparseSet.Insert
  cases hsp : s.Sparse (eIndex e) with
  | some d =>
      obtain ⟨hd, hidx⟩ := hs.sparseValid _ _ hsp
      dsimp only
      rw [SparseSet.Contains_iff, SparseSet.Contains_iff]
      dsimp only
      constructor
      · rintro ⟨d', hx, hval⟩
        by_cases hdd : d' = d
        · subst hdd
          rw [getD_set_self _ _ _ _ hd] at hval
          exact Or.inl hval.symm
        · rw [getD_set_ne _ _ _ _ _ (Ne.symm hdd)] at hval
          refine Or.inr ⟨⟨d', hx, hval⟩, ?_⟩
          intro hxe
          rw [hxe, hsp] at hx
          injection hx with hx
          exact hdd hx.symm
      · rintro (rfl | ⟨⟨d', hx, hval⟩, hne⟩)
        · exact ⟨d, hsp, by rw [getD_set_self _ _ _ _ hd]⟩
        · have hdd : d' ≠ d := by
            intro hdd
            subst hdd
            obtain ⟨_, hidx'⟩ := hs.sparseValid _ _ hx
            exact hne (by rw [← hidx']; exact hidx)
          exact ⟨d', hx, by rw [getD_set_ne _ _ _ _ _ (Ne.symm hdd)]; exact hval⟩
  | none =>
      dsimp only
      rw [SparseSet.Contains_iff, SparseSet.Contains_iff]
      dsimp only
      constructor
      · rintro ⟨d', hx, hval⟩
        by_cases hxe : eIndex x = eIndex e
        · rw [if_pos hxe] at hx
          injection hx with hx
          subst hx
          rw [hs.lenEq, getD_append_right _ _ _ _ (Nat.le_refl _), Nat.sub_self] at hval
          exact Or.inl hval.symm
        · rw [if_neg hxe] at hx
          obtain ⟨hd', _⟩ := hs.sparseValid _ _ hx
          rw [getD_append_left _ _ _ _ hd'] at hval
          exact Or.inr ⟨⟨d', hx, hval⟩, hxe⟩
      · rintro (rfl | ⟨⟨d', hx, hval⟩, hne⟩)
        · refine ⟨s.DenseData.length, by rw [if_pos rfl], ?_⟩
          rw [hs.lenEq, getD_append_right _ _ _ _ (Nat.le_refl _), Nat.sub_self]
          rfl
        · obtain ⟨hd', _⟩ := hs.sparseValid _ _ hx
          refine ⟨d', by rw [if_neg hne]; exact hx, ?_⟩
          rw [getD_append_left _ _ _ _ hd']
          exact hval

theorem SparseSet.Remove_Contains {α : Type} [Inhabited α] {s : SparseSet α} (hs : s.WF)
    (e x : Nat) (hc : s.Contains e = true) :
    (s.Remove e).Contains x = true ↔ (s.Contains x = true ∧ x ≠ e) := by
  obtain ⟨d, hsp, heq⟩ := (s.Contains_iff e).mp hc
  obtain ⟨hd, hidx⟩ := hs.sparseValid _ _ hsp
  have hlE : s.DenseData.length = s.DenseToEntity.length := hs.lenEq
  by_cases hdl : d = s.DenseData.length - 1
  · rw [s.Remove_eq_pop e d hsp heq hdl]
    rw [SparseSet.Contains_iff, SparseSet.Contains_iff]
    dsimp only
    by_cases hxe : eIndex x = eIndex e
    · rw [if_pos hxe]
      constructor
      · rintro ⟨d', hx, _⟩
        exact Option.noConfusion hx
      · rintro ⟨⟨d', hx, hval⟩, hne⟩
        rw [hxe, hsp] at hx
        injection hx with hx
        subst hx
        rw [heq] at hval
        exact absurd hval.symm hne
    · rw [if_neg hxe]
      constructor
      · rintro ⟨d', hx, hval⟩
        obtain ⟨hd', hidx'⟩ := hs.sparseValid _ _ hx
        have hned : d' ≠ d := by
          intro hdd
          subst hdd
          exact hxe (by rw [← hidx']; exact hidx)
        rw [getD_dropLast _ _ _ (by omega)] at hval
        refine ⟨⟨d', hx, hval⟩, ?_⟩
        intro hxeq
        exact hxe (by rw [hxeq])
      · rintro ⟨⟨d', hx, hval⟩, hne⟩
        obtain ⟨hd', hidx'⟩ := hs.sparseValid _ _ hx
        have hned : d' ≠ d := by
          intro hdd
          subst hdd
          exact hxe (by rw [← hidx']; exact hidx)
        exact ⟨d', hx, by rw [getD_dropLast _ _ _ (by omega)]; exact hval⟩
  · rw [s.Remove_eq_swap e d hsp heq hdl]
    have hlastlt : s.DenseData.length - 1 < s.DenseToEntity.length := by omega
    have hrbLast := hs.rowBack (s.DenseData.length - 1) hlastlt
    have hneIdx : eIndex (s.DenseToEntity.getD (s.DenseData.length - 1) 0) ≠ eIndex e := by
      intro hj
      rw [hj, hsp] at hrbLast
      injection hrbLast with hrbLast
      omega
    have hdlt : d < s.DenseToEntity.length - 1 := by omega
    rw [SparseSet.Contains_iff, SparseSet.Contains_iff]
    dsimp only
    by_cases hxe : eIndex x = eIndex e
    · rw [if_pos hxe]
      constructor
      · rintro ⟨d', hx, _⟩
        exact Option.noConfusion hx
      · rintro ⟨⟨d', hx, hval⟩, hne⟩
        rw [hxe, hsp] at hx
        injection hx with hx
        subst hx
        rw [heq] at hval
        exact absurd hval.symm hne
    · rw [if_neg hxe]
      by_cases hxl : eIndex x = eIndex (s.DenseToEntity.getD (s.DenseData.length - 1) 0)
      · rw [if_pos hxl]
        constructor
        · rintro ⟨d', hx, hval⟩
          injection hx with hx
          subst hx
          rw [getD_dropLast _ _ _ (by simp only [List.length_set]; omega),
            getD_set_self _ _ _ _ (by omega)] at hval
          refine ⟨⟨s.DenseData.length - 1, by rw [hxl]; exact hrbLast, hval⟩, ?_⟩
          intro hxeq
          exact hxe (by rw [hxeq])
        · rintro ⟨⟨d', hx, hval⟩, hne⟩
          rw [hxl, hrbLast] at hx
          injection hx with hx
          subst hx
          refine ⟨d, rfl, ?_⟩
          rw [getD_dropLast _ _ _ (by simp only [List.length_set]; omega),
            getD_set_self _ _ _ _ (by omega)]
          exact hval
      · rw [if_neg hxl]
        constructor
        · rintro ⟨d', hx, hval⟩
          obtain ⟨hd', hidx'⟩ := hs.sparseValid _ _ hx
          have hned : d' ≠ d := by
            intro hdd
            subst hdd
            exact hxe (by rw [← hidx']; exact hidx)
          have hnel : d' ≠ s.DenseData.length - 1 := by
            intro hdd
            subst hdd
            exact hxl hidx'.symm
          rw [getD_dropLast _ _ _ (by simp only [List.length_set]; omega),
            getD_set_ne _ _ _ _ _ (Ne.symm hned)] at hval
          refine ⟨⟨d', hx, hval⟩, ?_⟩
          intro hxeq
          exact hxe (by rw [hxeq])
        · rintro ⟨⟨d', hx, hval⟩, hne⟩
          obtain ⟨hd', hidx'⟩ := hs.sparseValid _ _ hx
          have hned : d' ≠ d := by
            intro hdd
            subst hdd
            exact hxe (by rw [← hidx']; exact hidx)
          have hnel : d' ≠ s.DenseData.length - 1 := by
            intro hdd
            subst hdd
            exact hxl hidx'.symm
          refine ⟨d', hx, ?_⟩
          rw [getD_dropLast _ _ _ (by simp only [List.length_set]; omega),
            getD_set_ne _ _ _ _ _ (Ne.symm hned)]
          exact hval

theorem SparseSet.Insert_Get {α : Type} [Inhabited α] {s : SparseSet α} (hs : s.WF)
    (e : Nat) (v : α) : (s.Insert e v).Get e = v := by
  unfold SparseSet.Insert SparseSet.Get
  cases hsp : s.Sparse (eIndex e) with
  | some d =>
      obtain ⟨hd, _⟩ := hs.sparseValid _ _ hsp
      dsimp only
      rw [hsp]
      dsimp only
      rw [getD_set_self _ _ _ _ (by rw [hs.lenEq]; exact hd)]
  | none =>
      dsimp only
      rw [if_pos rfl]
      dsimp only
      rw [getD_append_right _ _ _ _ (Nat.le_refl _), Nat.sub_self]
      rfl

theorem SparseSet.nodup_entities {α : Type} {s : SparseSet α} (hs : s.WF) :
    s.DenseToEntity.Nodup := by
  rw [List.nodup_iff_injective_get]
  intro i j hij
  have hi := hs.rowBack i.1 i.2
  have hj := hs.rowBack j.1 j.2
  have hgi : s.DenseToEntity.getD i.1 0 = s.DenseToEntity.get i := by
    rw [List.getD_eq_getElem _ _ i.2]
    rfl
  have hgj : s.DenseToEntity.getD j.1 0 = s.DenseToEntity.get j := by
    rw [List.getD_eq_getElem _ _ j.2]
    rfl
  rw [hgi, hij, ← hgj, hj] at hi
  injection hi with hi
  exact Fin.ext hi.symm

theorem SparseSet.contains_of_mem {α : Type} {s : SparseSet α} (hs : s.WF) (x : Nat)
    (hx : x ∈ s.DenseToEntity) : s.Contains x = true := by
  obtain ⟨i, hi⟩ := List.get_of_mem hx
  have hilt := i.2
  have hge : s.DenseToEntity.getD i.1 0 = x := by
    rw [List.getD_eq_getElem _ _ i.2]
    exact hi
  rw [SparseSet.Contains_iff]
  exact ⟨i.1, by rw [← hge]; exact hs.rowBack i.1 i.2, hge⟩

theorem SparseSet.mem_of_contains {α : Type} {s : SparseSet α} (hs : s.WF) (x : Nat)
    (hx : s.Contains x = true) : x ∈ s.DenseToEntity := by
  obtain ⟨d, hsp, heq⟩ := (s.Contains_iff x).mp hx
  obtain ⟨hd, _⟩ := hs.sparseValid _ _ hsp
  rw [← heq]
  exact getD_mem _ _ _ hd

theorem SparseSet.empty_Contains {α : Type} (x : Nat) :
    (SparseSet.empty (α := α)).Contains x = false := rfl

/-! ### SparseSet mutation traces

A sparse set reachable through the public mutators is `applySOps` of a list
of `Insert`/`Remove` calls starting from the empty set.  `lastInsertAt` reads
off, for a slot index `j`, the identifier passed to the last `Insert` whose
argument had index `j` — the identifier that last wrote the row. -/

theorem applySOps_append {α : Type} [Inhabited α] (s : SparseSet α) (ops : List (SOp α))
    (op : SOp α) : applySOps s (ops ++ [op]) = applySOp (applySOps s ops) op := by
  unfold applySOps
  rw [List.foldl_append]
  rfl

theorem lastInsertAt_append_ins {α : Type} (ops : List (SOp α)) (e : Nat) (v : α) (j : Nat) :
    lastInsertAt (ops ++ [SOp.ins e v]) j =
      if eIndex e = j then some e else lastInsertAt ops j := by
  unfold lastInsertAt
  rw [List.foldl_append]
  rfl

theorem lastInsertAt_append_del {α : Type} (ops : List (SOp α)) (e : Nat) (j : Nat) :
    lastInsertAt (ops ++ [SOp.del e]) j = lastInsertAt ops j := by
  unfold lastInsertAt
  rw [List.foldl_append]
  rfl

theorem WF_applySOps {α : Type} [Inhabited α] (ops : List (SOp α)) {s : SparseSet α}
    (hs : s.WF) : (applySOps s ops).WF := by
  induction ops generalizing s with
  | nil => exact hs
  | cons op ops ih =>
      cases op with
      | ins e v => exact ih (hs.Insert e v)
      | del e => exact ih (hs.Remove e)

theorem rowFaithful {α : Type} [Inhabited α] (ops : List (SOp α)) :
    ∀ j d, (applySOps SparseSet.empty ops).Sparse j = some d →
      lastInsertAt ops j = some ((applySOps SparseSet.empty ops).DenseToEntity.getD d 0) := by
  induction ops using List.reverseRecOn with
  | nil =>
      intro j d hj
      exact Option.noConfusion hj
  | append_singleton ops op ih =>
      rw [applySOps_append]
      have hwf : (applySOps (SparseSet.empty (α := α)) ops).WF :=
        WF_applySOps ops SparseSet.WF.empty
      set s := applySOps (SparseSet.empty (α := α)) ops with hsdef
      cases op with
      | ins e v =>
          intro j d hj
          rw [lastInsertAt_append_ins]
          replace hj : (s.Insert e v).Sparse j = some d := hj
          show (if eIndex e = j then some e else lastInsertAt ops j) =
            some ((s.Insert e v).DenseToEntity.getD d 0)
          cases hsp : s.Sparse (eIndex e) with
          | some d0 =>
              obtain ⟨hd0, hidx0⟩ := hwf.sparseValid _ _ hsp
              rw [s.Insert_eq_overwrite e v d0 hsp] at hj ⊢
              dsimp only at hj ⊢
              by_cases hje : eIndex e = j
              · subst hje
                rw [hsp] at hj
                injection hj with hj
                subst hj
                rw [if_pos rfl, getD_set_self _ _ _ _ hd0]
              · rw [if_neg hje]
                obtain ⟨hd', hidx'⟩ := hwf.sparseValid _ _ hj
                have hned : d ≠ d0 := by
                  intro hdd
                  subst hdd
                  exact hje (by rw [← hidx0, hidx'])
                rw [getD_set_ne _ _ _ _ _ (Ne.symm hned)]
                exact ih j d hj
          | none =>
              rw [s.Insert_eq_push e v hsp] at hj ⊢
              dsimp only at hj ⊢
              by_cases hje : j = eIndex e
              · subst hje
                rw [if_pos rfl] at hj
                injection hj with hj
                subst hj
                rw [if_pos rfl, hwf.lenEq, getD_append_right _ _ _ _ (Nat.le_refl _),
                  Nat.sub_self]
                rfl
              · rw [if_neg hje] at hj
                rw [if_neg (fun hh => hje hh.symm)]
                obtain ⟨hd', _⟩ := hwf.sparseValid _ _ hj
                rw [getD_append_left _ _ _ _ hd']
                exact ih j d hj
      | del e =>
          intro j d hj
          rw [lastInsertAt_append_del]
          replace hj : (s.Remove e).Sparse j = some d := hj
          show lastInsertAt ops j = some ((s.Remove e).DenseToEntity.getD d 0)
          by_cases hc : s.Contains e = true
          case neg =>
            rw [s.Remove_noop_of_not_contains e hc] at hj ⊢
            exact ih j d hj
          case pos =>
          obtain ⟨dR, hsp, heq⟩ := (s.Contains_iff e).mp hc
          obtain ⟨hdR, hidxR⟩ := hwf.sparseValid _ _ hsp
          have hlE : s.DenseData.length = s.DenseToEntity.length := hwf.lenEq
          by_cases hdl : dR = s.DenseData.length - 1
          · rw [s.Remove_eq_pop e dR hsp heq hdl] at hj ⊢
            dsimp only at hj ⊢
            by_cases hje : j = eIndex e
            · rw [if_pos hje] at hj
              exact Option.noConfusion hj
            · rw [if_neg hje] at hj
              obtain ⟨hd', hidx'⟩ := hwf.sparseValid _ _ hj
              have hned : d ≠ dR := by
                intro hdd
                subst hdd
                exact hje (by rw [← hidx', hidxR])
              rw [getD_dropLast _ _ _ (by omega)]
              exact ih j d hj
          · rw [s.Remove_eq_swap e dR hsp heq hdl] at hj ⊢
            have hlastlt : s.DenseData.length - 1 < s.DenseToEntity.length := by omega
            have hrbLast := hwf.rowBack (s.DenseData.length - 1) hlastlt
            dsimp only at hj ⊢
            by_cases hje : j = eIndex e
            · rw [if_pos hje] at hj
              exact Option.noConfusion hj
            rw [if_neg hje] at hj
            by_cases hjl : j = eIndex (s.DenseToEntity.getD (s.DenseData.length - 1) 0)
            · rw [if_pos hjl] at hj
              injection hj with hj
              subst hj
              rw [getD_dropLast _ _ _ (by simp only [List.length_set]; omega),
                getD_set_self _ _ _ _ (by omega)]
              have := ih j (s.DenseData.length - 1) (by rw [hjl]; exact hrbLast)
              exact this
            · rw [if_neg hjl] at hj
              obtain ⟨hd', hidx'⟩ := hwf.sparseValid _ _ hj
              have hned : d ≠ dR := by
                intro hdd
                subst hdd
                exact hje (by rw [← hidx', hidxR])
              have hnel : d ≠ s.DenseData.length - 1 := by
                intro hdd
                subst hdd
                exact hjl hidx'.symm
              rw [getD_dropLast _ _ _ (by simp only [List.length_set]; omega),
                getD_set_ne _ _ _ _ _ (Ne.symm hned)]
              exact ih j d hj

/-! ### World (`World.hpp`, `World.cpp`)

Component types are identified by their process-wide component id
(`ComponentID<T>::Value()`, a monotonic counter: distinct types get distinct
ids), so the type-indexed maps `m_ComponentStores` / `m_ComponentSignals`
collapse to id-indexed maps, and the raw pointers of `m_StoresByID` (always
set to the address of the store for the unique type with that id) collapse to
presence flags dereferenced through the id-indexed store map.  Component
payloads are opaque to all of the store logic (the sparse set is parametric
in `Component`), so they are erased to `Nat`.  `m_OnRemovedTriggers` holds
closures that call `TriggerEvent<T>(id, Removed)`; a slot is modelled by
whether it is installed.  `m_ComponentSignals` (populated only by `OnEvent`)
is modelled by whether an observer block exists for the id; `TriggerEvent`
dispatches callbacks only when it does, which the event log mirrors.
Observers in this model are passive (they do not re-enter the `World`).

The embedding does not model the `uint32_t` truncation of
`m_EntitySignatures.size()` in `CreateEntity`; it is faithful for worlds with
fewer than `2^32` slots, which the disciplined-reachability predicate
(`DReach`) enforces. -/

theorem resizeD_length {α : Type} (l : List α) (n : Nat) (d : α) :
    (resizeD l n d).length = max l.length n := by
  unfold resizeD
  split
  · omega
  · simp
    omega

theorem getD_resizeD_lt {α : Type} (l : List α) (n j : Nat) (d d' : α) (h : j < l.length) :
    (resizeD l n d).getD j d' = l.getD j d' := by
  unfold resizeD
  split
  · rfl
  · rw [getD_append_left _ _ _ _ h]

theorem getD_resizeD_pad {α : Type} (l : List α) (n j : Nat) (d : α)
    (h1 : l.length ≤ j) (h2 : j < n) : (resizeD l n d).getD j d = d := by
  unfold resizeD
  split
  · exact getD_oob _ _ _ (by omega)
  · rw [getD_append_right _ _ _ _ h1]
    exact getD_replicate _ _ _ _ (by omega)

theorem installAt_getD_self (l : List Bool) (i : Nat) : (installAt l i).getD i false = true := by
  unfold installAt
  apply getD_set_self
  rw [resizeD_length]
  omega

theorem installAt_getD_mono (l : List Bool) (i j : Nat)
    (h : l.getD j false = true) : (installAt l i).getD j false = true := by
  by_cases hij : i = j
  · subst hij
    exact installAt_getD_self l i
  unfold installAt
  rw [getD_set_ne _ _ _ _ _ hij]
  by_cases hjl : j < l.length
  · rw [getD_resizeD_lt _ _ _ _ _ hjl]
    exact h
  · rw [getD_oob _ _ _ (Nat.not_lt.mp hjl)] at h
    exact absurd h (by simp)

theorem removeStores_apply (w : World) (id : Nat) (l : List Nat)
    (g : Nat → Option (SparseSet Nat)) (hl : l.Nodup) (x : Nat) :
    removeStores w id l g x =
      if x ∈ l ∧ w.StoresByID.getD x false = true
      then Option.map (fun s => s.Remove id) (g x)
      else g x := by
  induction l generalizing g with
  | nil => simp [removeStores]
  | cons i l' ih =>
      have hl' : l'.Nodup := (List.nodup_cons.mp hl).2
      have hnotmem : i ∉ l' := (List.nodup_cons.mp hl).1
      by_cases hP : w.StoresByID.getD i false = true
      · have hstep : removeStores w id (i :: l') g =
            removeStores w id l'
              (fun y => if y = i then Option.map (fun s => s.Remove id) (g i) else g y) := by
          unfold removeStores
          rw [List.foldl_cons]
          rw [if_pos hP]
        rw [hstep, ih _ hl']
        by_cases hxi : x = i
        · subst hxi
          rw [if_neg (fun hh => hnotmem hh.1), if_pos rfl,
            if_pos ⟨List.mem_cons_self x l', hP⟩]
        · by_cases hx : x ∈ l' ∧ w.StoresByID.getD x false = true
          · rw [if_pos hx, if_neg hxi, if_pos ⟨List.mem_cons_of_mem i hx.1, hx.2⟩]
          · rw [if_neg hx, if_neg hxi, if_neg (by
              intro hh
              apply hx
              rcases List.mem_cons.mp hh.1 with h1 | h1
              · exact absurd h1 hxi
              · exact ⟨h1, hh.2⟩)]
      · have hstep : removeStores w id (i :: l') g = removeStores w id l' g := by
          unfold removeStores
          rw [List.foldl_cons]
          rw [if_neg hP]
        rw [hstep, ih _ hl']
        by_cases hx : x ∈ l' ∧ w.StoresByID.getD x false = true
        · rw [if_pos hx, if_pos ⟨List.mem_cons_of_mem i hx.1, hx.2⟩]
        · rw [if_neg hx, if_neg (by
            intro hh
            apply hx
            rcases List.mem_cons.mp hh.1 with h1 | h1
            · subst h1
              exact absurd hh.2 hP
            · exact ⟨h1, hh.2⟩)]

/-! ### The normal-operation invariant and disciplined reachability

`WInv` packages the state invariant that holds in every world built through
the public API used within its design envelope: identifiers passed to the
component mutators are alive `uint64_t` values, component ids stay below the
256-bit signature capacity, and the slot count stays below `2^32`. -/

theorem WInv.storeOf_wf {w : World} (hw : WInv w) (c : Nat) : (storeOf w c).WF := by
  unfold storeOf
  cases hc : w.ComponentStores c with
  | none => exact SparseSet.WF.empty
  | some s => exact hw.storesWF c s hc

theorem WInv.sig_getD_lt {w : World} (hw : WInv w) (i : Nat) :
    w.EntitySignatures.getD i 0 < 2 ^ 256 := by
  by_cases hi : i < w.EntitySignatures.length
  · exact hw.sigLt _ (getD_mem _ _ _ hi)
  · rw [getD_oob _ _ _ (Nat.not_lt.mp hi)]
    positivity

theorem WInv.gen_getD_lt {w : World} (hw : WInv w) (i : Nat) :
    w.EntityGenerations.getD i 0 < 2 ^ 32 := by
  by_cases hi : i < w.EntityGenerations.length
  · exact hw.genLt _ (getD_mem _ _ _ hi)
  · rw [getD_oob _ _ _ (Nat.not_lt.mp hi)]
    positivity

theorem WInv.emptyWorld : WInv World.empty := by
  constructor <;> intros <;> simp_all [World.empty, World.IsAlive, storeOf,
    SparseSet.empty, SparseSet.Contains, maskTest]

theorem IsAlive_iff (w : World) (e : Nat) :
    w.IsAlive e = true ↔
      eIndex e < w.EntitySignatures.length ∧
        w.EntityGenerations.getD (eIndex e) 0 = eGen e := by
  unfold World.IsAlive
  rw [Bool.and_eq_true, decide_eq_true_iff, beq_iff_eq]

theorem HasComponent_eq_of_lt (w : World) (c e : Nat)
    (h : eIndex e < w.EntitySignatures.length) :
    w.HasComponent c e = maskTest (w.EntitySignatures.getD (eIndex e) 0) c := by
  unfold World.HasComponent
  rw [if_neg (by omega)]

theorem WInv.onEvent {w : World} (hw : WInv w) (c : Nat) : WInv (w.OnEvent c) := by
  constructor
  · exact hw.lenGen
  · exact hw.lenLt
  · exact hw.sigLt
  · exact hw.genLt
  · exact hw.freeIdx
  · exact hw.storesWF
  · intro i c' hi hbit
    obtain ⟨h1, h2⟩ := hw.bitInstalled i c' hi hbit
    exact ⟨h1, installAt_getD_mono _ _ _ h2⟩
  · exact hw.main
  · exact hw.rowsAlive

theorem patchStore_Contains (s : SparseSet Nat) (id : Nat) (f : Nat → Nat) (x : Nat) :
    (match s.Sparse (eIndex id) with
      | some d => { s with DenseData := s.DenseData.set d (f (s.DenseData.getD d 0)) }
      | none => s).Contains x = s.Contains x := by
  cases hsp : s.Sparse (eIndex id) <;> rfl

theorem patchStore_WF (s : SparseSet Nat) (id : Nat) (f : Nat → Nat) (hs : s.WF) :
    (match s.Sparse (eIndex id) with
      | some d => { s with DenseData := s.DenseData.set d (f (s.DenseData.getD d 0)) }
      | none => s).WF := by
  cases hsp : s.Sparse (eIndex id)
  · exact hs
  · constructor
    · simpa using hs.lenEq
    · exact hs.sparseValid
    · exact hs.rowBack

theorem storeOf_record_setStore (w : World) (SB : List Bool) (SI : Nat → Bool)
    (TR : List Bool) (SIG GEN FREE : List Nat) (c c2 : Nat) (t : SparseSet Nat) :
    storeOf ⟨SB, setStore w c t, SI, TR, SIG, GEN, FREE⟩ c2 =
      (setStore w c t c2).getD SparseSet.empty := rfl

theorem setStore_getD_self (w : World) (c : Nat) (t : SparseSet Nat) :
    (setStore w c t c).getD SparseSet.empty = t := by
  unfold setStore
  rw [if_pos rfl]
  rfl

theorem setStore_getD_ne (w : World) (c c2 : Nat) (t : SparseSet Nat) (h : c2 ≠ c) :
    (setStore w c t c2).getD SparseSet.empty = storeOf w c2 := by
  unfold setStore storeOf
  rw [if_neg h]

theorem setStore_self (w : World) (c : Nat) (t : SparseSet Nat) :
    setStore w c t c = some t := by
  unfold setStore
  rw [if_pos rfl]

theorem setStore_ne (w : World) (c c2 : Nat) (t : SparseSet Nat) (h : c2 ≠ c) :
    setStore w c t c2 = w.ComponentStores c2 := by
  unfold setStore
  rw [if_neg h]

theorem WInv.patch {w : World} (hw : WInv w) (c id : Nat) (f : Nat → Nat) :
    WInv (w.PatchComponent c id f).1 := by
  unfold World.PatchComponent
  by_cases hc : w.HasComponent c id = true
  case neg =>
    rw [if_neg hc]
    exact hw
  case pos =>
  rw [if_pos hc]
  dsimp only
  constructor
  · exact hw.lenGen
  · exact hw.lenLt
  · exact hw.sigLt
  · exact hw.genLt
  · exact hw.freeIdx
  · intro c2 s2 hs2
    dsimp only at hs2
    by_cases hcc : c2 = c
    · subst hcc
      rw [setStore_self] at hs2
      injection hs2 with hs2
      subst hs2
      exact patchStore_WF _ _ _ (hw.storeOf_wf c2)
    · rw [setStore_ne _ _ _ _ hcc] at hs2
      exact hw.storesWF c2 s2 hs2
  · exact hw.bitInstalled
  · intro c2 e he halive
    rw [storeOf_record_setStore]
    by_cases hcc : c2 = c
    · subst hcc
      rw [setStore_getD_self, patchStore_Contains (storeOf w c2) id f e]
      exact hw.main c2 e he halive
    · rw [setStore_getD_ne _ _ _ _ hcc]
      exact hw.main c2 e he halive
  · intro c2 e hcont
    rw [storeOf_record_setStore] at hcont
    by_cases hcc : c2 = c
    · subst hcc
      rw [setStore_getD_self, patchStore_Contains (storeOf w c2) id f e] at hcont
      exact hw.rowsAlive c2 e hcont
    · rw [setStore_getD_ne _ _ _ _ hcc] at hcont
      exact hw.rowsAlive c2 e hcont

theorem maskTest_zero (c : Nat) : maskTest 0 c = false := by
  unfold maskTest
  split
  · exact Nat.zero_testBit c
  · rfl

theorem WInv.create {w : World} (hw : WInv w) (hlen : w.EntitySignatures.length < 2 ^ 32) :
    WInv (w.CreateEntity).1 := by
  unfold World.CreateEntity
  cases hfl : w.FreeEntities.getLast? with
  | some id =>
      dsimp only
      constructor
      · exact hw.lenGen
      · exact hw.lenLt
      · exact hw.sigLt
      · exact hw.genLt
      · intro f hf
        exact hw.freeIdx f ((List.dropLast_sublist _).mem hf)
      · exact hw.storesWF
      · exact hw.bitInstalled
      · exact hw.main
      · exact hw.rowsAlive
  | none =>
      dsimp only
      have hL := hw.lenGen
      constructor
      · simp [hw.lenGen]
      · simp
        omega
      · intro m hm
        rcases List.mem_append.mp hm with h | h
        · exact hw.sigLt m h
        · simp at h
          subst h
          positivity
      · intro g hg
        rcases List.mem_append.mp hg with h | h
        · exact hw.genLt g h
        · simp at h
          subst h
          positivity
      · intro f hf
        have := hw.freeIdx f hf
        simp
        omega
      · exact hw.storesWF
      · intro i c hi hbit
        simp only [List.length_append, List.length_singleton] at hi
        by_cases hil : i < w.EntitySignatures.length
        · rw [getD_append_left _ _ _ _ hil] at hbit
          exact hw.bitInstalled i c hil hbit
        · have : i = w.EntitySignatures.length := by omega
          subst this
          rw [getD_append_right _ _ _ _ (Nat.le_refl _), Nat.sub_self] at hbit
          rw [show (([0] : List Nat)).getD 0 0 = 0 from rfl, maskTest_zero] at hbit
          exact Bool.noConfusion hbit
      · intro c e he halive
        rw [IsAlive_iff] at halive
        dsimp only at halive
        simp only [List.length_append, List.length_singleton] at halive
        by_cases hil : eIndex e < w.EntitySignatures.length
        · rw [getD_append_left _ _ _ _ hil]
          rw [getD_append_left _ _ _ _ (by omega)] at halive
          exact hw.main c e he ((IsAlive_iff w e).mpr ⟨hil, halive.2⟩)
        · have hieq : eIndex e = w.EntitySignatures.length := by omega
          rw [hieq, getD_append_right _ _ _ _ (Nat.le_refl _), Nat.sub_self,
            show (([0] : List Nat)).getD 0 0 = 0 from rfl, maskTest_zero]
          constructor
          · intro hh
            exact Bool.noConfusion hh
          · intro hcont
            have := (hw.rowsAlive c e hcont).1
            rw [IsAlive_iff] at this
            omega
      · intro c e hcont
        obtain ⟨halive, he⟩ := hw.rowsAlive c e hcont
        rw [IsAlive_iff] at halive
        refine ⟨?_, he⟩
        rw [IsAlive_iff]
        dsimp only
        simp only [List.length_append, List.length_singleton]
        exact ⟨by omega, by rw [getD_append_left _ _ _ _ (by omega)]; exact halive.2⟩

theorem resizeD_id {α : Type} (l : List α) (n : Nat) (d : α) (h : n ≤ l.length) :
    resizeD l n d = l := by
  unfold resizeD
  rw [if_pos h]

theorem maskTest_maskSet (m c c2 : Nat) (hm : m < 2 ^ 256) (hc : c < 256) :
    maskTest (maskSet m c) c2 = (maskTest m c2 || decide (c = c2)) := by
  rw [maskTest_eq_testBit _ _ (maskSet_lt _ _ hm), maskSet_testBit _ _ _ hc,
    maskTest_eq_testBit _ _ hm]

theorem maskTest_maskReset (m c c2 : Nat) (hm : m < 2 ^ 256) (hc : c < 256) :
    maskTest (maskReset m c) c2 = (maskTest m c2 && !decide (c = c2)) := by
  rw [maskTest_eq_testBit _ _ (maskReset_lt _ _ hm), maskReset_testBit _ _ _ hc]
  by_cases h2 : c2 < 256
  · rw [maskTest_eq_testBit _ _ hm]
    simp [h2]
  · have hb : m.testBit c2 = false :=
      Nat.testBit_lt_two_pow
        (Nat.lt_of_lt_of_le hm (Nat.pow_le_pow_right (by norm_num) (Nat.not_lt.mp h2)))
    unfold maskTest
    rw [if_neg h2]
    simp [hb, h2]

theorem WInv.add {w : World} (hw : WInv w) {c e : Nat} (v : Nat) (hc : c < 256)
    (he : e < 2 ^ 64) (halive : w.IsAlive e = true) : WInv (w.AddComponent c e v).1 := by
  obtain ⟨hixlt, hgen⟩ := (IsAlive_iff w e).mp halive
  have hresz : resizeD w.EntitySignatures (eIndex e + 1) 0 = w.EntitySignatures :=
    resizeD_id _ _ _ (by omega)
  have hmlt : w.EntitySignatures.getD (eIndex e) 0 < 2 ^ 256 := hw.sig_getD_lt _
  unfold World.AddComponent
  rw [hresz]
  dsimp only
  constructor
  · simpa using hw.lenGen
  · simpa using hw.lenLt
  · intro m hm
    rcases List.mem_or_eq_of_mem_set hm with h | h
    · exact hw.sigLt m h
    · subst h
      exact maskSet_lt _ _ hmlt
  · exact hw.genLt
  · intro f hf
    have := hw.freeIdx f hf
    simpa using this
  · intro c2 s2 hs2
    dsimp only at hs2
    by_cases hcc : c2 = c
    · subst hcc
      rw [setStore_self] at hs2
      injection hs2 with hs2
      subst hs2
      exact (hw.storeOf_wf c2).Insert e v
    · rw [setStore_ne _ _ _ _ hcc] at hs2
      exact hw.storesWF c2 s2 hs2
  · intro i c2 hi hbit
    simp only [List.length_set] at hi
    by_cases hie : i = eIndex e
    · subst hie
      rw [getD_set_self _ _ _ _ (by omega)] at hbit
      rw [maskTest_maskSet _ _ _ hmlt hc] at hbit
      rcases Bool.or_eq_true_iff.mp hbit with h | h
      · obtain ⟨h1, h2⟩ := hw.bitInstalled _ c2 hi h
        exact ⟨installAt_getD_mono _ _ _ h1, installAt_getD_mono _ _ _ h2⟩
      · have : c = c2 := of_decide_eq_true h
        subst this
        exact ⟨installAt_getD_self _ _, installAt_getD_self _ _⟩
    · rw [getD_set_ne _ _ _ _ _ (fun hh => hie hh.symm)] at hbit
      obtain ⟨h1, h2⟩ := hw.bitInstalled i c2 hi hbit
      exact ⟨installAt_getD_mono _ _ _ h1, installAt_getD_mono _ _ _ h2⟩
  · intro c2 x hx halx
    have halx' : w.IsAlive x = true := by
      rw [IsAlive_iff] at halx ⊢
      simpa using halx
    by_cases hxe : eIndex x = eIndex e
    · have hxeq : x = e := by
        apply eq_of_eIndex_eGen x e hx he hxe
        obtain ⟨_, hg1⟩ := (IsAlive_iff w x).mp halx'
        rw [← hg1, hxe, hgen]
      subst hxeq
      rw [hxe] at *
      rw [getD_set_self _ _ _ _ (by omega), maskTest_maskSet _ _ _ hmlt hc]
      by_cases hcc : c2 = c
      · subst hcc
        rw [storeOf_record_setStore, setStore_getD_self]
        rw [SparseSet.Insert_Contains (hw.storeOf_wf c2) x x v]
        simp
      · rw [storeOf_record_setStore, setStore_getD_ne _ _ _ _ hcc]
        rw [decide_eq_false (fun hh => hcc hh.symm), Bool.or_false]
        exact hw.main c2 x hx halx'
    · rw [getD_set_ne _ _ _ _ _ (fun hh => hxe hh.symm)]
      by_cases hcc : c2 = c
      · subst hcc
        rw [storeOf_record_setStore, setStore_getD_self]
        rw [SparseSet.Insert_Contains (hw.storeOf_wf c2) e x v]
        rw [hw.main c2 x hx halx']
        constructor
        · intro hh
          exact Or.inr ⟨hh, hxe⟩
        · rintro (rfl | ⟨hh, _⟩)
          · exact absurd rfl hxe
          · exact hh
      · rw [storeOf_record_setStore, setStore_getD_ne _ _ _ _ hcc]
        exact hw.main c2 x hx halx'
  · intro c2 x hcont
    have hback : ∀ y, w.IsAlive y = true →
        (w.AddComponent c e v).1.IsAlive y = true := by
      intro y hy
      rw [IsAlive_iff] at hy ⊢
      unfold World.AddComponent
      rw [hresz]
      dsimp only
      simpa using hy
    by_cases hcc : c2 = c
    · subst hcc
      rw [storeOf_record_setStore, setStore_getD_self] at hcont
      rw [SparseSet.Insert_Contains (hw.storeOf_wf c2) e x v] at hcont
      rcases hcont with rfl | ⟨hcont, _⟩
      · refine ⟨?_, he⟩
        rw [IsAlive_iff]
        simpa using (IsAlive_iff w x).mp halive
      · obtain ⟨ha, hlt⟩ := hw.rowsAlive c2 x hcont
        refine ⟨?_, hlt⟩
        rw [IsAlive_iff]
        simpa using (IsAlive_iff w x).mp ha
    · rw [storeOf_record_setStore, setStore_getD_ne _ _ _ _ hcc] at hcont
      obtain ⟨ha, hlt⟩ := hw.rowsAlive c2 x hcont
      refine ⟨?_, hlt⟩
      rw [IsAlive_iff]
      simpa using (IsAlive_iff w x).mp ha

theorem maskTest_lt_256 (m c : Nat) (h : maskTest m c = true) : c < 256 := by
  unfold maskTest at h
  by_cases hc : c < 256
  · exact hc
  · rw [if_neg hc] at h
    exact Bool.noConfusion h

theorem WInv.remove {w : World} (hw : WInv w) {c e : Nat} (he : e < 2 ^ 64)
    (halive : w.IsAlive e = true) : WInv (w.RemoveComponent c e).1 := by
  obtain ⟨hixlt, hgen⟩ := (IsAlive_iff w e).mp halive
  have hmlt : w.EntitySignatures.getD (eIndex e) 0 < 2 ^ 256 := hw.sig_getD_lt _
  unfold World.RemoveComponent
  by_cases hcond :
      (decide (eIndex e < w.EntitySignatures.length) && w.HasComponent c e) = true
  case neg =>
    rw [if_neg (by simpa using hcond)]
    exact hw
  case pos =>
  rw [if_pos hcond]
  have hhas : w.HasComponent c e = true := ((Bool.and_eq_true _ _).mp hcond).2
  have hbit : maskTest (w.EntitySignatures.getD (eIndex e) 0) c = true := by
    rw [← HasComponent_eq_of_lt w c e hixlt]
    exact hhas
  have hc256 : c < 256 := maskTest_lt_256 _ _ hbit
  have hcont : (storeOf w c).Contains e = true := (hw.main c e he halive).mp hbit
  dsimp only
  constructor
  · simpa using hw.lenGen
  · simpa using hw.lenLt
  · intro m hm
    rcases List.mem_or_eq_of_mem_set hm with h | h
    · exact hw.sigLt m h
    · subst h
      exact maskReset_lt _ _ hmlt
  · exact hw.genLt
  · intro f hf
    have := hw.freeIdx f hf
    simpa using this
  · intro c2 s2 hs2
    dsimp only at hs2
    by_cases hcc : c2 = c
    · subst hcc
      rw [setStore_self] at hs2
      injection hs2 with hs2
      subst hs2
      exact (hw.storeOf_wf c2).Remove e
    · rw [setStore_ne _ _ _ _ hcc] at hs2
      exact hw.storesWF c2 s2 hs2
  · intro i c2 hi hbit2
    simp only [List.length_set] at hi
    by_cases hie : i = eIndex e
    · subst hie
      rw [getD_set_self _ _ _ _ (by omega)] at hbit2
      rw [maskTest_maskReset _ _ _ hmlt hc256] at hbit2
      obtain ⟨h1, _⟩ := (Bool.and_eq_true _ _).mp hbit2
      exact hw.bitInstalled _ c2 hi h1
    · rw [getD_set_ne _ _ _ _ _ (fun hh => hie hh.symm)] at hbit2
      exact hw.bitInstalled i c2 hi hbit2
  · intro c2 x hx halx
    have halx' : w.IsAlive x = true := by
      rw [IsAlive_iff] at halx ⊢
      simpa using halx
    by_cases hxe : eIndex x = eIndex e
    · have hxeq : x = e := by
        apply eq_of_eIndex_eGen x e hx he hxe
        obtain ⟨_, hg1⟩ := (IsAlive_iff w x).mp halx'
        rw [← hg1, hxe, hgen]
      subst hxeq
      rw [hxe] at *
      rw [getD_set_self _ _ _ _ (by omega), maskTest_maskReset _ _ _ hmlt hc256]
      by_cases hcc : c2 = c
      · subst hcc
        rw [storeOf_record_setStore, setStore_getD_self]
        rw [SparseSet.Remove_Contains (hw.storeOf_wf c2) x x hcont]
        simp
      · rw [storeOf_record_setStore, setStore_getD_ne _ _ _ _ hcc]
        rw [decide_eq_false (fun hh => hcc hh.symm)]
        simp only [Bool.not_false, Bool.and_true]
        exact hw.main c2 x hx halx'
    · rw [getD_set_ne _ _ _ _ _ (fun hh => hxe hh.symm)]
      by_cases hcc : c2 = c
      · subst hcc
        rw [storeOf_record_setStore, setStore_getD_self]
        rw [SparseSet.Remove_Contains (hw.storeOf_wf c2) e x hcont]
        rw [hw.main c2 x hx halx']
        constructor
        · intro hh
          refine ⟨hh, ?_⟩
          intro hxeq
          subst hxeq
          exact hxe rfl
        · rintro ⟨hh, _⟩
          exact hh
      · rw [storeOf_record_setStore, setStore_getD_ne _ _ _ _ hcc]
        exact hw.main c2 x hx halx'
  · intro c2 x hcont2
    have hback : ∀ y, w.IsAlive y = true → True := fun _ _ => trivial
    by_cases hcc : c2 = c
    · subst hcc
      rw [storeOf_record_setStore, setStore_getD_self] at hcont2
      rw [SparseSet.Remove_Contains (hw.storeOf_wf c2) e x hcont] at hcont2
      obtain ⟨ha, hlt⟩ := hw.rowsAlive c2 x hcont2.1
      refine ⟨?_, hlt⟩
      rw [IsAlive_iff]
      simpa using (IsAlive_iff w x).mp ha
    · rw [storeOf_record_setStore, setStore_getD_ne _ _ _ _ hcc] at hcont2
      obtain ⟨ha, hlt⟩ := hw.rowsAlive c2 x hcont2
      refine ⟨?_, hlt⟩
      rw [IsAlive_iff]
      simpa using (IsAlive_iff w x).mp ha

theorem map_remove_getD (o : Option (SparseSet Nat)) (id : Nat) :
    (Option.map (fun s => s.Remove id) o).getD SparseSet.empty =
      (o.getD SparseSet.empty).Remove id := by
  cases o with
  | none => rfl
  | some s => rfl

theorem storeOf_record_removeStores (w : World) (e : Nat) (l : List Nat)
    (SB : List Bool) (SI : Nat → Bool) (TR : List Bool) (SIG GEN FREE : List Nat)
    (c : Nat) :
    storeOf ⟨SB, removeStores w e l w.ComponentStores, SI, TR, SIG, GEN, FREE⟩ c =
      (removeStores w e l w.ComponentStores c).getD SparseSet.empty := rfl

theorem removeStores_getD (w : World) (e : Nat) (m c : Nat) :
    (removeStores w e (maskBits m) w.ComponentStores c).getD SparseSet.empty =
      if c ∈ maskBits m ∧ w.StoresByID.getD c false = true
      then (storeOf w c).Remove e
      else storeOf w c := by
  rw [removeStores_apply w e _ _ (maskBits_nodup m) c]
  split
  · exact map_remove_getD _ _
  · rfl

theorem succ_mod_ne (g : Nat) : (g + 1) % 2 ^ 32 ≠ g := by
  omega

theorem WInv.destroy {w : World} (hw : WInv w) {e : Nat} (he : e < 2 ^ 64) :
    WInv (w.DestroyEntity e).1 := by
  unfold World.DestroyEntity
  by_cases halive : w.IsAlive e = true
  case neg =>
    rw [if_neg halive]
    exact hw
  case pos =>
  rw [if_pos halive]
  dsimp only
  obtain ⟨hixlt, hgeneq⟩ := (IsAlive_iff w e).mp halive
  have hlG : w.EntityGenerations.length = w.EntitySignatures.length := hw.lenGen
  have hmlt := hw.sig_getD_lt (eIndex e)
  have hglt := hw.gen_getD_lt (eIndex e)
  have hix32 : eIndex e < 2 ^ 32 := eIndex_lt e
  have hnew32 : (w.EntityGenerations.getD (eIndex e) 0 + 1) % 2 ^ 32 < 2 ^ 32 :=
    Nat.mod_lt _ (by norm_num)
  have hce : ∀ c2, c2 ∈ maskBits (w.EntitySignatures.getD (eIndex e) 0) →
      (storeOf w c2).Contains e = true := by
    intro c2 hmem
    rw [mem_maskBits] at hmem
    refine (hw.main c2 e he halive).mp ?_
    unfold maskTest
    rw [if_pos hmem.1]
    exact hmem.2
  constructor
  · simpa using hw.lenGen
  · simpa using hw.lenLt
  · intro m hm
    rcases List.mem_or_eq_of_mem_set hm with h | h
    · exact hw.sigLt m h
    · subst h
      positivity
  · intro g hg
    rcases List.mem_or_eq_of_mem_set hg with h | h
    · exact hw.genLt g h
    · subst h
      exact hnew32
  · intro f hf
    rcases List.mem_append.mp hf with h | h
    · have := hw.freeIdx f h
      simpa using this
    · simp only [List.mem_singleton] at h
      subst h
      rw [eIndex_mkEntity _ _ hix32]
      simpa using hixlt
  · intro c2 s2 hs2
    dsimp only at hs2
    rw [removeStores_apply w e _ _
      (maskBits_nodup (w.EntitySignatures.getD (eIndex e) 0)) c2] at hs2
    by_cases hsel : c2 ∈ maskBits (w.EntitySignatures.getD (eIndex e) 0) ∧
        w.StoresByID.getD c2 false = true
    · rw [if_pos hsel] at hs2
      cases hcs : w.ComponentStores c2 with
      | none =>
          rw [hcs] at hs2
          exact Option.noConfusion hs2
      | some s0 =>
          rw [hcs] at hs2
          injection hs2 with hs2
          subst hs2
          exact (hw.storesWF c2 s0 hcs).Remove e
    · rw [if_neg hsel] at hs2
      exact hw.storesWF c2 s2 hs2
  · intro i c2 hi hbit2
    dsimp only at hi hbit2
    simp only [List.length_set] at hi
    by_cases hie : i = eIndex e
    · subst hie
      rw [getD_set_self _ _ _ _ (by omega), maskTest_zero] at hbit2
      exact Bool.noConfusion hbit2
    · rw [getD_set_ne _ _ _ _ _ (fun hh => hie hh.symm)] at hbit2
      exact hw.bitInstalled i c2 hi hbit2
  · intro c2 x hx halx
    dsimp only
    rw [IsAlive_iff] at halx
    dsimp only at halx
    simp only [List.length_set] at halx
    rw [storeOf_record_removeStores, removeStores_getD]
    by_cases hxe : eIndex x = eIndex e
    · rw [hxe] at halx ⊢
      rw [getD_set_self _ _ _ _ (by omega)] at halx
      rw [getD_set_self _ _ _ _ (by omega)]
      rw [maskTest_zero]
      have hxdead : ∀ hcx : (storeOf w c2).Contains x = true, False := by
        intro hcx
        obtain ⟨hax, _⟩ := hw.rowsAlive c2 x hcx
        obtain ⟨_, hg2⟩ := (IsAlive_iff w x).mp hax
        rw [hxe] at hg2
        rw [hg2] at halx
        exact succ_mod_ne _ halx.2
      constructor
      · intro hh
        exact Bool.noConfusion hh
      · intro hcx
        exfalso
        split at hcx
        · rename_i hsel
          rw [SparseSet.Remove_Contains (hw.storeOf_wf c2) e x (hce c2 hsel.1)] at hcx
          exact hxdead hcx.1
        · exact hxdead hcx
    · rw [getD_set_ne _ _ _ _ _ (fun hh => hxe hh.symm)] at halx
      rw [getD_set_ne _ _ _ _ _ (fun hh => hxe hh.symm)]
      have halx' : w.IsAlive x = true := (IsAlive_iff w x).mpr ⟨by omega, halx.2⟩
      split
      · rename_i hsel
        rw [SparseSet.Remove_Contains (hw.storeOf_wf c2) e x (hce c2 hsel.1)]
        rw [hw.main c2 x hx halx']
        constructor
        · intro hh
          refine ⟨hh, ?_⟩
          intro hxeq
          subst hxeq
          exact hxe rfl
        · rintro ⟨hh, _⟩
          exact hh
      · exact hw.main c2 x hx halx'
  · intro c2 x hcont2
    rw [storeOf_record_removeStores, removeStores_getD] at hcont2
    by_cases hsel : c2 ∈ maskBits (w.EntitySignatures.getD (eIndex e) 0) ∧
        w.StoresByID.getD c2 false = true
    · rw [if_pos hsel] at hcont2
      rw [SparseSet.Remove_Contains (hw.storeOf_wf c2) e x (hce c2 hsel.1)] at hcont2
      obtain ⟨hcx, hne⟩ := hcont2
      obtain ⟨hax, hlt⟩ := hw.rowsAlive c2 x hcx
      obtain ⟨hxl, hxg⟩ := (IsAlive_iff w x).mp hax
      refine ⟨?_, hlt⟩
      rw [IsAlive_iff]
      dsimp only
      simp only [List.length_set]
      have hxe : eIndex x ≠ eIndex e := by
        intro hh
        apply hne
        apply eq_of_eIndex_eGen x e hlt he hh
        rw [← hxg, hh, hgeneq]
      refine ⟨by omega, ?_⟩
      rw [getD_set_ne _ _ _ _ _ (fun hh2 => hxe hh2.symm)]
      exact hxg
    · rw [if_neg hsel] at hcont2
      obtain ⟨hax, hlt⟩ := hw.rowsAlive c2 x hcont2
      obtain ⟨hxl, hxg⟩ := (IsAlive_iff w x).mp hax
      refine ⟨?_, hlt⟩
      rw [IsAlive_iff]
      dsimp only
      simp only [List.length_set]
      have hxe : eIndex x ≠ eIndex e := by
        intro hh
        apply hsel
        have hxeq : x = e := by
          apply eq_of_eIndex_eGen x e hlt he hh
          rw [← hxg, hh, hgeneq]
        subst hxeq
        have hbitc : maskTest (w.EntitySignatures.getD (eIndex x) 0) c2 = true :=
          (hw.main c2 x hlt hax).mpr hcont2
        have hc256 : c2 < 256 := maskTest_lt_256 _ _ hbitc
        refine ⟨?_, (hw.bitInstalled (eIndex x) c2 hxl hbitc).1⟩
        rw [← hh, mem_maskBits]
        refine ⟨hc256, ?_⟩
        unfold maskTest at hbitc
        rw [if_pos hc256] at hbitc
        exact hbitc
      refine ⟨by omega, ?_⟩
      rw [getD_set_ne _ _ _ _ _ (fun hh2 => hxe hh2.symm)]
      exact hxg

theorem WInv.popFree {w : World} (hw : WInv w) :
    WInv { w with FreeEntities := w.FreeEntities.dropLast } := by
  constructor
  · exact hw.lenGen
  · exact hw.lenLt
  · exact hw.sigLt
  · exact hw.genLt
  · intro f hf
    exact hw.freeIdx f ((List.dropLast_sublist _).mem hf)
  · exact hw.storesWF
  · exact hw.bitInstalled
  · exact hw.main
  · exact hw.rowsAlive

theorem createLoop_winv : ∀ (n : Nat) (w : World), WInv w →
    WInv (World.createLoop w n).1 ∧
    (World.createLoop w n).1.EntitySignatures = w.EntitySignatures ∧
    (World.createLoop w n).1.EntityGenerations = w.EntityGenerations := by
  intro n
  induction n with
  | zero =>
      intro w hw
      exact ⟨hw, rfl, rfl⟩
  | succ n ih =>
      intro w hw
      unfold World.createLoop
      by_cases hfree : w.FreeEntities.isEmpty = true
      · rw [if_pos hfree]
        exact ⟨hw, rfl, rfl⟩
      · rw [if_neg hfree]
        dsimp only
        cases hgl : w.FreeEntities.getLast? with
        | none =>
            exfalso
            rw [List.getLast?_eq_none_iff] at hgl
            exact hfree (List.isEmpty_iff.mpr hgl)
        | some lid =>
            have hpop : (w.CreateEntity).1 =
                { w with FreeEntities := w.FreeEntities.dropLast } := by
              unfold World.CreateEntity
              rw [hgl]
            rw [hpop]
            exact ih _ hw.popFree

theorem WInv.createBulk {w : World} (hw : WInv w) (n : Nat)
    (hn : w.EntitySignatures.length + n ≤ 2 ^ 32) : WInv (w.CreateEntitiesBulk n).1 := by
  obtain ⟨hw1, hs1, hg1⟩ := createLoop_winv n w hw
  unfold World.CreateEntitiesBulk
  dsimp only
  by_cases hrem : n - (World.createLoop w n).2.length = 0
  · rw [if_pos hrem]
    exact hw1
  · rw [if_neg hrem]
    dsimp only
    set w1 := (World.createLoop w n).1 with hw1def
    set rem := n - (World.createLoop w n).2.length with hremdef
    have hremn : rem ≤ n := Nat.sub_le _ _
    have hlG1 : w1.EntityGenerations.length = w1.EntitySignatures.length := hw1.lenGen
    constructor
    · simp [hw1.lenGen]
    · simp only [List.length_append, List.length_replicate]
      rw [hs1]
      omega
    · intro m hm
      rcases List.mem_append.mp hm with h | h
      · exact hw1.sigLt m h
      · rw [List.eq_of_mem_replicate h]
        positivity
    · intro g hg
      rcases List.mem_append.mp hg with h | h
      · exact hw1.genLt g h
      · rw [List.eq_of_mem_replicate h]
        positivity
    · intro f hf
      have := hw1.freeIdx f hf
      simp only [List.length_append, List.length_replicate]
      omega
    · exact hw1.storesWF
    · intro i c hi hbit
      simp only [List.length_append, List.length_replicate] at hi
      by_cases hil : i < w1.EntitySignatures.length
      · rw [getD_append_left _ _ _ _ hil] at hbit
        exact hw1.bitInstalled i c hil hbit
      · rw [getD_append_right _ _ _ _ (Nat.not_lt.mp hil),
          getD_replicate _ _ _ _ (by omega), maskTest_zero] at hbit
        exact Bool.noConfusion hbit
    · intro c x hx halx
      rw [IsAlive_iff] at halx
      dsimp only at halx
      simp only [List.length_append, List.length_replicate] at halx
      by_cases hil : eIndex x < w1.EntitySignatures.length
      · rw [getD_append_left _ _ _ _ hil]
        rw [getD_append_left _ _ _ _ (by omega)] at halx
        exact hw1.main c x hx ((IsAlive_iff w1 x).mpr ⟨hil, halx.2⟩)
      · rw [getD_append_right _ _ _ _ (Nat.not_lt.mp hil),
          getD_replicate _ _ _ _ (by omega), maskTest_zero]
        constructor
        · intro hh
          exact Bool.noConfusion hh
        · intro hcont
          exfalso
          have := (hw1.rowsAlive c x hcont).1
          rw [IsAlive_iff] at this
          omega
    · intro c x hcont
      obtain ⟨hax, hlt⟩ := hw1.rowsAlive c x hcont
      obtain ⟨hxl, hxg⟩ := (IsAlive_iff w1 x).mp hax
      refine ⟨?_, hlt⟩
      rw [IsAlive_iff]
      dsimp only
      simp only [List.length_append, List.length_replicate]
      exact ⟨by omega, by rw [getD_append_left _ _ _ _ (by omega)]; exact hxg⟩

theorem DReach.winv {w : World} (h : DReach w) : WInv w := by
  induction h with
  | empty => exact WInv.emptyWorld
  | create _ hlen ih => exact ih.create hlen
  | createBulk _ hlen ih => exact ih.createBulk _ hlen
  | destroy _ he ih => exact ih.destroy he
  | add v _ hc he halive ih => exact ih.add v hc he halive
  | remove _ he halive ih => exact ih.remove he halive
  | onEvent _ ih => exact ih.onEvent _
  | patch _ ih => exact ih.patch _ _ _

/-! ### Views (`World.hpp`, `World::View`)

The view's constructor folds `Set(ComponentID<Ci>)` over a zero mask.
`Each` picks the store with the strictly smallest `Size()` seen first
(`minSize` starts at `SIZE_MAX`, so the first store always replaces the null
pointer; updates only on `<`), walks that store's dense entity vector and
filters by `signatures[index].Contains(query mask)`.  For the claims, what
matters is which entities an invocation of the callback is made for; the
visited dense rows are modelled as the list of their entity identifiers. -/

theorem findSmallestStep_some (sizes : List Nat) (acc : Option (Nat × Nat)) (i : Nat) :
    findSmallestStep sizes acc i ≠ none := by
  unfold findSmallestStep
  cases acc with
  | none => simp
  | some p =>
      obtain ⟨m, b⟩ := p
      dsimp only
      split <;> simp

theorem foldl_findSmallestStep_some (sizes : List Nat) :
    ∀ (is : List Nat) (acc : Option (Nat × Nat)), (acc ≠ none ∨ is ≠ []) →
      is.foldl (findSmallestStep sizes) acc ≠ none := by
  intro is
  induction is with
  | nil =>
      intro acc h
      rcases h with h | h
      · exact h
      · exact absurd rfl h
  | cons i is ih =>
      intro acc _
      rw [List.foldl_cons]
      exact ih _ (Or.inl (findSmallestStep_some sizes acc i))

theorem foldl_findSmallestStep_bound (sizes : List Nat) (n : Nat) :
    ∀ (is : List Nat) (acc : Option (Nat × Nat)),
      (∀ p, acc = some p → p.2 < n) → (∀ i ∈ is, i < n) →
      ∀ p, is.foldl (findSmallestStep sizes) acc = some p → p.2 < n := by
  intro is
  induction is with
  | nil =>
      intro acc hacc _ p hp
      exact hacc p hp
  | cons i is ih =>
      intro acc hacc his p hp
      rw [List.foldl_cons] at hp
      refine ih _ ?_ (fun j hj => his j (List.mem_cons_of_mem _ hj)) p hp
      intro q hq
      unfold findSmallestStep at hq
      cases acc with
      | none =>
          injection hq with hq
          subst hq
          exact his i (List.mem_cons_self _ _)
      | some r =>
          obtain ⟨m, b⟩ := r
          dsimp only at hq
          split at hq
          · injection hq with hq
            subst hq
            exact his i (List.mem_cons_self _ _)
          · injection hq with hq
            subst hq
            exact hacc (m, b) rfl

theorem findSmallest_spec (sizes : List Nat) (hne : sizes ≠ []) :
    ∃ p, findSmallest sizes = some p ∧ p.2 < sizes.length := by
  have hlen : 0 < sizes.length := List.length_pos.mpr hne
  have hsome := foldl_findSmallestStep_some sizes (List.range sizes.length) none
    (Or.inr (by rw [Ne, List.range_eq_nil]; omega))
  cases hp : findSmallest sizes with
  | none => exact absurd hp hsome
  | some p =>
      refine ⟨p, rfl, ?_⟩
      exact foldl_findSmallestStep_bound sizes sizes.length _ none
        (fun q hq => Option.noConfusion hq) (fun i hi => List.mem_range.mp hi) p hp

theorem foldl_maskSet_testBit (cs : List Nat) (hcs : ∀ c ∈ cs, c < 256) :
    ∀ (m b : Nat), ((cs.foldl maskSet m).testBit b = true ↔
      (m.testBit b = true ∨ b ∈ cs)) := by
  induction cs with
  | nil =>
      intro m b
      simp
  | cons c cs ih =>
      intro m b
      rw [List.foldl_cons]
      have hc : c < 256 := hcs c (List.mem_cons_self _ _)
      rw [ih (fun x hx => hcs x (List.mem_cons_of_mem _ hx)) (maskSet m c) b]
      rw [maskSet_testBit m c b hc]
      simp only [Bool.or_eq_true, decide_eq_true_eq, List.mem_cons]
      constructor
      · rintro ((h | h) | h)
        · exact Or.inl h
        · exact Or.inr (Or.inl h.symm)
        · exact Or.inr (Or.inr h)
      · rintro (h | (h | h))
        · exact Or.inl (Or.inl h)
        · exact Or.inl (Or.inr h.symm)
        · exact Or.inr h

theorem queryMask_testBit (cs : List Nat) (hcs : ∀ c ∈ cs, c < 256) (b : Nat) :
    ((queryMask cs).testBit b = true ↔ b ∈ cs) := by
  unfold queryMask
  rw [foldl_maskSet_testBit cs hcs 0 b]
  simp [Nat.zero_testBit]

theorem visitedVia_mem (w : World) (hw : WInv w) (cs : List Nat)
    (hcs : ∀ c ∈ cs, c < 256) (c : Nat) (hc : c ∈ cs) (e : Nat) :
    e ∈ visitedVia w cs c ↔
      (w.IsAlive e = true ∧ e < 2 ^ 64 ∧ ∀ c2 ∈ cs, w.HasComponent c2 e = true) := by
  unfold visitedVia
  rw [List.mem_filter]
  constructor
  · rintro ⟨hmem, hmask⟩
    have hcont : (storeOf w c).Contains e = true :=
      SparseSet.contains_of_mem (hw.storeOf_wf c) e hmem
    obtain ⟨halive, hlt⟩ := hw.rowsAlive c e hcont
    obtain ⟨hixl, _⟩ := (IsAlive_iff w e).mp halive
    refine ⟨halive, hlt, ?_⟩
    intro c2 hc2
    rw [HasComponent_eq_of_lt w c2 e hixl]
    unfold maskTest
    rw [if_pos (hcs c2 hc2)]
    exact (maskContains_iff _ _).mp hmask c2 ((queryMask_testBit cs hcs c2).mpr hc2)
  · rintro ⟨halive, hlt, hhas⟩
    obtain ⟨hixl, _⟩ := (IsAlive_iff w e).mp halive
    have hbit : ∀ c2, c2 ∈ cs →
        (w.EntitySignatures.getD (eIndex e) 0).testBit c2 = true := by
      intro c2 hc2
      have := hhas c2 hc2
      rw [HasComponent_eq_of_lt w c2 e hixl] at this
      unfold maskTest at this
      rw [if_pos (hcs c2 hc2)] at this
      exact this
    constructor
    · apply SparseSet.mem_of_contains (hw.storeOf_wf c) e
      refine (hw.main c e hlt halive).mp ?_
      unfold maskTest
      rw [if_pos (hcs c hc)]
      exact hbit c hc
    · rw [maskContains_iff]
      intro b hb
      exact hbit b ((queryMask_testBit cs hcs b).mp hb)

theorem visitedVia_nodup (w : World) (hw : WInv w) (cs : List Nat) (c : Nat) :
    (visitedVia w cs c).Nodup :=
  (SparseSet.nodup_entities (hw.storeOf_wf c)).filter _

theorem ViewEach_eq_visitedVia (w : World) (cs : List Nat) (hne : cs ≠ []) :
    ∃ c ∈ cs, ViewEach w cs = visitedVia w cs c := by
  unfold ViewEach
  rw [if_neg (by simpa using hne)]
  have hlen : (cs.map (fun c => (storeOf w c).Size)) ≠ [] := by
    simpa using hne
  obtain ⟨p, hp, hplt⟩ := findSmallest_spec _ hlen
  rw [hp]
  refine ⟨cs.getD p.2 0, ?_, rfl⟩
  rw [List.length_map] at hplt
  exact getD_mem _ _ _ hplt

/-! ### SystemScheduler (`SystemScheduler.cpp`)

The named-system graph `m_Graph` maps a name to its node; names are modelled
as `Nat` (they are opaque keys) and the map as an association list with
distinct keys.  A node's `Dependents` edges are maintained bidirectionally by
`AddSystem` so that `m.Dependents` contains exactly the nodes listing `m`
among their `Dependencies`; they are therefore modelled as derived from the
dependency lists.  `RebuildGraph` computes in-degrees (`inDegree[n] =
|Dependencies(n)|`, missing names included), seeds the first batch with the
in-degree-0 nodes, and repeatedly decrements dependents of the current
batch, batching a node the moment its counter hits zero.  Since each batched
node is processed exactly once, a counter reaches zero exactly when every
occurrence in the node's dependency list has been batched, so the next batch
is the set of unbatched nodes all of whose dependencies are already batched
— which is how `kahnStep` reads.  `unordered_map` iteration order is
unspecified; batches are produced here in key order, which leaves batch
membership and sizes (all that the detection condition consumes) unchanged.
The loop runs at most one round per node; `g.length + 1` rounds of fuel are
provably enough (`kahnRun_final`).  `RunGraph` rebuilds and then, exactly
when the sum of the batch sizes is less than the number of nodes, throws the
cycle error before executing anything: the error case returns `none` with no
execution list. -/

theorem contains_iff_mem (l : List Nat) (n : Nat) : l.contains n = true ↔ n ∈ l := by
  simp [List.contains, List.elem_iff]

theorem mem_kahnStep (g : SGraph) (acc : List Nat) (n : Nat) :
    n ∈ kahnStep g acc ↔
      (n ∈ keys g ∧ n ∉ acc ∧ ∀ d ∈ depsOf g n, d ∈ acc) := by
  unfold kahnStep
  rw [List.mem_filter]
  simp only [Bool.and_eq_true, Bool.not_eq_true', List.all_eq_true]
  constructor
  · rintro ⟨h1, h2, h3⟩
    refine ⟨h1, ?_, ?_⟩
    · intro hmem
      rw [← contains_iff_mem acc n] at hmem
      rw [h2] at hmem
      exact Bool.noConfusion hmem
    · intro d hd
      exact (contains_iff_mem acc d).mp (h3 d hd)
  · rintro ⟨h1, h2, h3⟩
    refine ⟨h1, ?_, ?_⟩
    · rw [← Bool.not_eq_true, contains_iff_mem]
      exact h2
    · intro d hd
      exact (contains_iff_mem acc d).mpr (h3 d hd)

theorem kahnRun_layered (g : SGraph) (hk : (keys g).Nodup) :
    ∀ (fuel : Nat) (acc : List Nat), Layered g acc (kahnRun g fuel acc) := by
  intro fuel
  induction fuel with
  | zero =>
      intro acc
      exact Layered.nil
  | succ fuel ih =>
      intro acc
      unfold kahnRun
      dsimp only
      split
      · exact Layered.nil
      · refine Layered.cons ?_ (hk.filter _) (ih _)
        intro n hn
        exact (mem_kahnStep g acc n).mp hn

theorem Layered.nodup_flatten {g : SGraph} :
    ∀ {acc : List Nat} {bs : List (List Nat)}, Layered g acc bs → acc.Nodup →
      (acc ++ bs.flatten).Nodup := by
  intro acc bs h
  induction h with
  | nil =>
      intro hacc
      simpa using hacc
  | cons hb hnd _ ih =>
      intro hacc
      rename_i acc' b bs'
      rw [List.flatten_cons, ← List.append_assoc]
      apply ih
      rw [List.nodup_append]
      refine ⟨hacc, hnd, ?_⟩
      intro a ha hb2
      exact (hb a hb2).2.1 ha

theorem Layered.spec {g : SGraph} :
    ∀ {acc : List Nat} {bs : List (List Nat)}, Layered g acc bs →
      ∀ (i : Nat) (n : Nat), n ∈ bs.getD i [] →
        n ∈ keys g ∧ n ∉ acc ++ (bs.take i).flatten ∧
          ∀ d ∈ depsOf g n, d ∈ acc ++ (bs.take i).flatten := by
  intro acc bs h
  induction h with
  | nil =>
      intro i n hn
      rw [getD_oob _ _ _ (by simp)] at hn
      exact absurd hn (List.not_mem_nil n)
  | cons hb hnd hrest ih =>
      intro i n hn
      rename_i acc' b bs'
      cases i with
      | zero =>
          have hn0 : n ∈ b := hn
          obtain ⟨h1, h2, h3⟩ := hb n hn0
          simp only [List.take_zero, List.flatten_nil, List.append_nil]
          exact ⟨h1, h2, h3⟩
      | succ i =>
          have hn' : n ∈ bs'.getD i [] := hn
          obtain ⟨h1, h2, h3⟩ := ih i n hn'
          rw [List.take_succ_cons, List.flatten_cons, ← List.append_assoc]
          exact ⟨h1, h2, h3⟩

theorem mem_flatten_take (bs : List (List Nat)) (i : Nat) (a : Nat)
    (h : a ∈ (bs.take i).flatten) : ∃ j, j < i ∧ a ∈ bs.getD j [] := by
  rw [List.mem_flatten] at h
  obtain ⟨l, hl, hal⟩ := h
  rw [List.mem_take_iff_getElem] at hl
  obtain ⟨j, hj, hgl⟩ := hl
  have hjlen : j < bs.length := by
    have := hj
    omega
  refine ⟨j, by omega, ?_⟩
  rw [List.getD_eq_getElem _ _ hjlen]
  rw [hgl]
  exact hal

theorem mem_flatten_getD (bs : List (List Nat)) (a : Nat) (h : a ∈ bs.flatten) :
    ∃ j, j < bs.length ∧ a ∈ bs.getD j [] := by
  rw [List.mem_flatten] at h
  obtain ⟨l, hl, hal⟩ := h
  obtain ⟨j, hj, hgl⟩ := List.getElem_of_mem hl
  refine ⟨j, hj, ?_⟩
  rw [List.getD_eq_getElem _ _ hj, hgl]
  exact hal

theorem nodup_flatten_getD (bs : List (List Nat)) (hnd : bs.flatten.Nodup)
    (i j : Nat) (hij : i ≠ j) (n : Nat) (hni : n ∈ bs.getD i []) (hnj : n ∈ bs.getD j []) :
    False := by
  have hil : i < bs.length := by
    by_contra hh
    rw [getD_oob _ _ _ (by omega)] at hni
    exact List.not_mem_nil n hni
  have hjl : j < bs.length := by
    by_contra hh
    rw [getD_oob _ _ _ (by omega)] at hnj
    exact List.not_mem_nil n hnj
  obtain ⟨_, hpair⟩ := List.nodup_flatten.mp hnd
  rw [List.pairwise_iff_get] at hpair
  rw [List.getD_eq_getElem _ _ hil] at hni
  rw [List.getD_eq_getElem _ _ hjl] at hnj
  rcases Nat.lt_or_ge i j with h | h
  · exact hpair ⟨i, hil⟩ ⟨j, hjl⟩ h hni hnj
  · have hji : j < i := by omega
    exact hpair ⟨j, hjl⟩ ⟨i, hil⟩ hji hnj hni

theorem layered_edge_lt {g : SGraph} {bs : List (List Nat)} (h : Layered g [] bs)
    (a n : Nat) (he : Edge g a n) (i : Nat) (hn : n ∈ bs.getD i []) :
    ∃ j, j < i ∧ a ∈ bs.getD j [] := by
  obtain ⟨_, _, hd⟩ := he
  obtain ⟨_, _, h3⟩ := h.spec i n hn
  have hmem := h3 a hd
  rw [List.nil_append] at hmem
  exact mem_flatten_take bs i a hmem

theorem layered_transGen_lt {g : SGraph} {bs : List (List Nat)} (h : Layered g [] bs)
    (a n : Nat) (ht : Relation.TransGen (Edge g) a n) :
    ∀ i, n ∈ bs.getD i [] → ∃ j, j < i ∧ a ∈ bs.getD j [] := by
  induction ht with
  | single he =>
      intro i hn
      exact layered_edge_lt h _ _ he i hn
  | tail ht he ih =>
      intro i hn
      obtain ⟨j, hj, hm⟩ := layered_edge_lt h _ _ he i hn
      obtain ⟨k, hk2, ha⟩ := ih j hm
      exact ⟨k, by omega, ha⟩

theorem layered_cycle_not_mem {g : SGraph} {bs : List (List Nat)} (h : Layered g [] bs)
    (hnd : bs.flatten.Nodup) (n : Nat) (hc : Relation.TransGen (Edge g) n n) :
    n ∉ bs.flatten := by
  intro hmem
  obtain ⟨i, _, hni⟩ := mem_flatten_getD bs n hmem
  obtain ⟨j, hji, hnj⟩ := layered_transGen_lt h n n hc i hni
  exact nodup_flatten_getD bs hnd i j (by omega) n hni hnj

theorem layered_flatten_keys {g : SGraph} {bs : List (List Nat)} (h : Layered g [] bs)
    (n : Nat) (hn : n ∈ bs.flatten) : n ∈ keys g := by
  obtain ⟨i, _, hni⟩ := mem_flatten_getD bs n hn
  exact (h.spec i n hni).1

theorem layered_missing_not_mem {g : SGraph} {bs : List (List Nat)} (h : Layered g [] bs)
    (n d : Nat) (hd : d ∈ depsOf g n) (hdk : d ∉ keys g) : n ∉ bs.flatten := by
  intro hmem
  obtain ⟨i, _, hni⟩ := mem_flatten_getD bs n hmem
  obtain ⟨_, _, h3⟩ := h.spec i n hni
  have hdm := h3 d hd
  rw [List.nil_append] at hdm
  obtain ⟨j, _, hdj⟩ := mem_flatten_take bs i d hdm
  apply hdk
  exact (h.spec j d hdj).1

theorem kahnStep_eq_nil (g : SGraph) (acc : List Nat)
    (h : ∀ n ∈ keys g, n ∈ acc) : kahnStep g acc = [] := by
  unfold kahnStep
  rw [List.filter_eq_nil_iff]
  intro n hn
  rw [Bool.and_eq_true, Bool.not_eq_true']
  rintro ⟨h1, _⟩
  have := (contains_iff_mem acc n).mpr (h n hn)
  rw [h1] at this
  exact Bool.noConfusion this

theorem kahnRun_final (g : SGraph) :
    ∀ (fuel : Nat) (acc : List Nat),
      ((keys g).filter (fun n => !(acc.contains n))).length ≤ fuel →
      kahnStep g (acc ++ (kahnRun g fuel acc).flatten) = [] := by
  intro fuel
  induction fuel with
  | zero =>
      intro acc hm
      have hfil : (keys g).filter (fun n => !(acc.contains n)) = [] :=
        List.eq_nil_of_length_eq_zero (Nat.le_zero.mp hm)
      have hall : ∀ n ∈ keys g, n ∈ acc := by
        intro n hn
        by_contra hna
        have hmem : n ∈ (keys g).filter (fun n => !(acc.contains n)) := by
          rw [List.mem_filter]
          refine ⟨hn, ?_⟩
          rw [Bool.not_eq_true', ← Bool.not_eq_true]
          intro hco
          exact hna ((contains_iff_mem acc n).mp hco)
        rw [hfil] at hmem
        exact List.not_mem_nil n hmem
      show kahnStep g (acc ++ (kahnRun g 0 acc).flatten) = []
      rw [show kahnRun g 0 acc = [] from rfl]
      rw [List.flatten_nil, List.append_nil]
      exact kahnStep_eq_nil g acc hall
  | succ fuel ih =>
      intro acc hm
      show kahnStep g (acc ++ (kahnRun g (fuel + 1) acc).flatten) = []
      unfold kahnRun
      dsimp only
      by_cases hb : (kahnStep g acc).isEmpty = true
      · rw [if_pos hb]
        rw [List.flatten_nil, List.append_nil]
        exact List.isEmpty_iff.mp hb
      · rw [if_neg hb]
        rw [List.flatten_cons, ← List.append_assoc]
        apply ih
        obtain ⟨n0, hn0⟩ := List.exists_mem_of_ne_nil _ (by
          intro hnil
          exact hb (List.isEmpty_iff.mpr hnil))
        obtain ⟨hn0k, hn0a, _⟩ := (mem_kahnStep g acc n0).mp hn0
        have hcongr : (keys g).filter (fun n => !((acc ++ kahnStep g acc).contains n)) =
            ((keys g).filter (fun n => !(acc.contains n))).filter
              (fun n => !((acc ++ kahnStep g acc).contains n)) := by
          rw [List.filter_filter]
          apply List.filter_congr
          intro a _
          by_cases hpa : (acc ++ kahnStep g acc).contains a = true
          · rw [hpa]
            rfl
          · have hana : a ∉ acc ++ kahnStep g acc := by
              intro hh
              exact hpa ((contains_iff_mem _ a).mpr hh)
            have hana2 : a ∉ acc := fun hh => hana (List.mem_append_left _ hh)
            have h1 : (acc ++ kahnStep g acc).contains a = false := by
              rw [← Bool.not_eq_true]
              intro hh
              exact hana ((contains_iff_mem _ a).mp hh)
            have h2 : acc.contains a = false := by
              rw [← Bool.not_eq_true]
              intro hh
              exact hana2 ((contains_iff_mem _ a).mp hh)
            rw [h1, h2]
            rfl
        rw [hcongr]
        have hlt : (((keys g).filter (fun n => !(acc.contains n))).filter
            (fun n => !((acc ++ kahnStep g acc).contains n))).length <
            ((keys g).filter (fun n => !(acc.contains n))).length := by
          rw [List.length_filter_lt_length_iff_exists]
          refine ⟨n0, ?_, ?_⟩
          · rw [List.mem_filter]
            refine ⟨hn0k, ?_⟩
            rw [Bool.not_eq_true', ← Bool.not_eq_true]
            intro hco
            exact hn0a ((contains_iff_mem acc n0).mp hco)
          · intro hh
            rw [Bool.not_eq_true'] at hh
            have hmm := (contains_iff_mem (acc ++ kahnStep g acc) n0).mpr
              (List.mem_append_right acc hn0)
            rw [hh] at hmm
            exact Bool.noConfusion hmm
        omega

theorem RebuildGraph_final (g : SGraph) :
    kahnStep g ((RebuildGraph g).flatten) = [] := by
  have hfin := kahnRun_final g (g.length + 1) []
  unfold RebuildGraph
  rw [List.nil_append] at hfin
  apply hfin
  have heq : (keys g).filter (fun n => !(([] : List Nat).contains n)) = keys g :=
    List.filter_eq_self.mpr (fun a _ => rfl)
  rw [heq]
  unfold keys
  rw [List.length_map]
  omega

theorem RebuildGraph_layered (g : SGraph) (hk : (keys g).Nodup) :
    Layered g [] (RebuildGraph g) := kahnRun_layered g hk _ []

theorem RebuildGraph_nodup (g : SGraph) (hk : (keys g).Nodup) :
    (RebuildGraph g).flatten.Nodup := by
  have := (RebuildGraph_layered g hk).nodup_flatten List.nodup_nil
  rwa [List.nil_append] at this

theorem kahn_complete (g : SGraph)
    (hnm : ¬ HasMissingDep g) (hnc : ¬ HasCycle g) :
    ∀ n ∈ keys g, n ∈ (RebuildGraph g).flatten := by
  by_contra hex
  push_neg at hex
  obtain ⟨n0, hn0k, hn0m⟩ := hex
  classical
  have hstep := RebuildGraph_final g
  have hnext : ∀ n, n ∈ keys g ∧ n ∉ (RebuildGraph g).flatten →
      ∃ d, (d ∈ keys g ∧ d ∉ (RebuildGraph g).flatten) ∧ Edge g d n := by
    rintro n ⟨hnk, hnJ⟩
    have hns : ¬ (n ∈ kahnStep g (RebuildGraph g).flatten) := by
      rw [hstep]
      exact List.not_mem_nil n
    rw [mem_kahnStep] at hns
    push_neg at hns
    obtain ⟨d, hd, hdJ⟩ := hns hnk hnJ
    have hdk : d ∈ keys g := by
      by_contra hdk2
      exact hnm ⟨n, hnk, d, hd, hdk2⟩
    exact ⟨d, ⟨hdk, hdJ⟩, hdk, hnk, hd⟩
  let P : Nat → Prop := fun n => n ∈ keys g ∧ n ∉ (RebuildGraph g).flatten
  have hnext2 : ∀ n, ∃ d, (P n → (P d ∧ Edge g d n)) := by
    intro n
    by_cases h : P n
    · obtain ⟨d, hd1, hd2⟩ := hnext n h
      exact ⟨d, fun _ => ⟨hd1, hd2⟩⟩
    · exact ⟨n0, fun hh => absurd hh h⟩
  let f : Nat → Nat := fun n => Classical.choose (hnext2 n)
  have hf : ∀ n, P n → P (f n) ∧ Edge g (f n) n :=
    fun n h => Classical.choose_spec (hnext2 n) h
  let seq : Nat → Nat := fun k => Nat.rec n0 (fun _ prev => f prev) k
  have hseqS : ∀ k, seq (k + 1) = f (seq k) := fun k => rfl
  have hseqP : ∀ k, P (seq k) := by
    intro k
    induction k with
    | zero => exact ⟨hn0k, hn0m⟩
    | succ k ihk =>
        rw [hseqS k]
        exact (hf (seq k) ihk).1
  have hedge : ∀ k, Edge g (seq (k + 1)) (seq k) := by
    intro k
    rw [hseqS k]
    exact (hf (seq k) (hseqP k)).2
  have htrans : ∀ (d a : Nat), Relation.TransGen (Edge g) (seq (a + d + 1)) (seq a) := by
    intro d
    induction d with
    | zero =>
        intro a
        exact Relation.TransGen.single (hedge a)
    | succ d ihd =>
        intro a
        have h1 : Edge g (seq (a + d + 2)) (seq (a + d + 1)) := hedge (a + d + 1)
        have h2 := ihd a
        exact Relation.TransGen.head (by
          have : a + (d + 1) + 1 = a + d + 2 := by omega
          rw [this]
          exact h1) h2
  classical
  set U := (keys g).toFinset.filter (fun n => n ∉ (RebuildGraph g).flatten) with hU
  have hmaps : ∀ k ∈ Finset.range (U.card + 1), seq k ∈ U := by
    intro k _
    obtain ⟨h1, h2⟩ := hseqP k
    rw [hU, Finset.mem_filter, List.mem_toFinset]
    exact ⟨h1, h2⟩
  have hcard : U.card < (Finset.range (U.card + 1)).card := by
    rw [Finset.card_range]
    omega
  obtain ⟨i, hi, j, hj, hij, hfeq⟩ :=
    Finset.exists_ne_map_eq_of_card_lt_of_maps_to hcard hmaps
  rcases Nat.lt_or_ge i j with hlt | hge
  · apply hnc
    refine ⟨seq i, ?_⟩
    have := htrans (j - i - 1) i
    have hji : i + (j - i - 1) + 1 = j := by omega
    rw [hji] at this
    rw [← hfeq] at this
    exact this
  · have hlt2 : j < i := by omega
    apply hnc
    refine ⟨seq j, ?_⟩
    have := htrans (i - j - 1) j
    have hji : j + (i - j - 1) + 1 = i := by omega
    rw [hji] at this
    rw [hfeq] at this
    exact this

theorem batch_sum_iff (g : SGraph) (hk : (keys g).Nodup) :
    (((RebuildGraph g).map List.length).sum < (keys g).length ↔
      (HasMissingDep g ∨ HasCycle g)) := by
  classical
  have hlay := RebuildGraph_layered g hk
  have hnd := RebuildGraph_nodup g hk
  have hsum : ((RebuildGraph g).map List.length).sum = (RebuildGraph g).flatten.length :=
    (List.length_flatten _).symm
  rw [hsum]
  have hsubK : (RebuildGraph g).flatten.toFinset ⊆ (keys g).toFinset := by
    intro x hx
    rw [List.mem_toFinset] at hx ⊢
    exact layered_flatten_keys hlay x hx
  constructor
  · intro hlt
    by_contra hboth
    push_neg at hboth
    obtain ⟨hnm, hnc⟩ := hboth
    have hsub := kahn_complete g hnm hnc
    have hsubF : (keys g).toFinset ⊆ (RebuildGraph g).flatten.toFinset := by
      intro x hx
      rw [List.mem_toFinset] at hx ⊢
      exact hsub x hx
    have hcard := Finset.card_le_card hsubF
    rw [List.toFinset_card_of_nodup hk, List.toFinset_card_of_nodup hnd] at hcard
    omega
  · intro h
    have hex : ∃ n, n ∈ keys g ∧ n ∉ (RebuildGraph g).flatten := by
      rcases h with ⟨n, hnk, d, hd, hdk⟩ | ⟨n, hcyc⟩
      · exact ⟨n, hnk, layered_missing_not_mem hlay n d hd hdk⟩
      · have hnk : n ∈ keys g := by
          cases hcyc with
          | single he => exact he.2.1
          | tail _ he => exact he.2.1
        exact ⟨n, hnk, layered_cycle_not_mem hlay hnd n hcyc⟩
    obtain ⟨n, hnk, hnm⟩ := hex
    have hss : (RebuildGraph g).flatten.toFinset ⊂ (keys g).toFinset := by
      rw [Finset.ssubset_iff_of_subset hsubK]
      exact ⟨n, by rw [List.mem_toFinset]; exact hnk,
        by rw [List.mem_toFinset]; exact hnm⟩
    have hcard := Finset.card_lt_card hss
    rw [List.toFinset_card_of_nodup hk, List.toFinset_card_of_nodup hnd] at hcard
    exact hcard

theorem eIndex_small (k : Nat) (h : k < 2 ^ 32) : eIndex k = k := Nat.mod_eq_of_lt h

theorem eGen_small (k : Nat) (h : k < 2 ^ 32) : eGen k = 0 := by
  unfold eGen
  rw [Nat.div_eq_of_lt h]
  rfl

theorem filterMap_eq_map_of {α β : Type} (l : List α) (f : α → Option β) (g : α → β)
    (h : ∀ x ∈ l, f x = some (g x)) : l.filterMap f = l.map g := by
  induction l with
  | nil => rfl
  | cons x l ih =>
      rw [List.filterMap_cons, List.map_cons, h x (List.mem_cons_self _ _),
        ih (fun y hy => h y (List.mem_cons_of_mem _ hy))]

/-! ### The claims

Concrete sample states used by the per-claim counterexamples and witnesses:
each is built by the public constructors only. -/

/-- Claim C1 counterexample: the three-way equivalence fails for a stale
identifier.  In the reachable world where entity `0` (generation 0) holds
component `0`, the identifier `2^32` (same index, generation 1) satisfies
`HasComponent` and the signature-bit test, yet the store's `Contains`
rejects it under full identifier equality. -/
theorem C1_counterexample :
    DReach C1world ∧
    C1world.HasComponent 0 (2 ^ 32) = true ∧
    maskTest (C1world.EntitySignatures.getD (eIndex (2 ^ 32)) 0) 0 = true ∧
    (storeOf C1world 0).Contains (2 ^ 32) = false := by
  refine ⟨DReach.add 5 (DReach.create DReach.empty (by decide)) (by decide)
    (by decide) (by decide), by decide, by decide, by decide⟩

/-- Claim C1 (amended): in every world reachable through the disciplined
public API, for every component id `c` and every identifier `e` that is
*alive* (and in `uint64_t` range), `HasComponent` agrees with the signature
bit at `e`'s index, which in turn agrees with the store's `Contains e`; the
restriction to alive identifiers is necessary (see the counterexample). -/
theorem C1_amended_invariant (w : World) (hw : DReach w) (c e : Nat)
    (he : e < 2 ^ 64) (halive : w.IsAlive e = true) :
    (w.HasComponent c e = true ↔
      maskTest (w.EntitySignatures.getD (eIndex e) 0) c = true) ∧
    (maskTest (w.EntitySignatures.getD (eIndex e) 0) c = true ↔
      (storeOf w c).Contains e = true) := by
  have hwi := hw.winv
  have hidx : eIndex e < w.EntitySignatures.length := ((IsAlive_iff w e).mp halive).1
  refine ⟨?_, hwi.main c e he halive⟩
  rw [HasComponent_eq_of_lt w c e hidx]

/-- Claim C1 witness: the amended invariant instantiated at the sample world
and its live entity `0` holding component `0`. -/
theorem C1_amended_invariant_w :
    (C1world.HasComponent 0 0 = true ↔
      maskTest (C1world.EntitySignatures.getD (eIndex 0) 0) 0 = true) ∧
    (maskTest (C1world.EntitySignatures.getD (eIndex 0) 0) 0 = true ↔
      (storeOf C1world 0).Contains 0 = true) :=
  C1_amended_invariant C1world
    (DReach.add 5 (DReach.create DReach.empty (by decide)) (by decide)
      (by decide) (by decide))
    0 0 (by decide) (by decide)

/-- Claim C2 counterexample: "visits exactly `{e : ∀ i, has Ci e}`" fails for
stale identifiers.  In the reachable sample world, the stale identifier
`2^32` satisfies `HasComponent 0` (the test is index-only), yet the view
over `[0]` never visits it; the view visits the stored identifier `0`. -/
theorem C2_counterexample :
    DReach C2world ∧
    C2world.HasComponent 0 (2 ^ 32) = true ∧
    (2 ^ 32) ∉ ViewEach C2world [0] ∧
    0 ∈ ViewEach C2world [0] := by
  refine ⟨DReach.add 5 (DReach.create DReach.empty (by decide)) (by decide)
    (by decide) (by decide), by decide, by decide, by decide⟩

/-- Claim C2 (amended): for a disciplined-reachable world and a non-empty
component list within signature capacity, `Each` walks the list produced by
some participating store (the smallest-first choice), that list has no
duplicates, its members are exactly the *alive* in-range identifiers
satisfying `HasComponent` for every listed component, and the visited set is
the same whichever participating store drives the iteration. -/
theorem C2_view_characterization (w : World) (hw : DReach w) (cs : List Nat)
    (hne : cs ≠ []) (hcs : ∀ c ∈ cs, c < 256) :
    (∃ c ∈ cs, ViewEach w cs = visitedVia w cs c) ∧
    (ViewEach w cs).Nodup ∧
    (∀ e, e ∈ ViewEach w cs ↔
      (w.IsAlive e = true ∧ e < 2 ^ 64 ∧ ∀ c2 ∈ cs, w.HasComponent c2 e = true)) ∧
    (∀ c ∈ cs, ∀ e, (e ∈ visitedVia w cs c ↔ e ∈ ViewEach w cs)) := by
  have hwi := hw.winv
  obtain ⟨c0, hc0, heq⟩ := ViewEach_eq_visitedVia w cs hne
  refine ⟨⟨c0, hc0, heq⟩, ?_, ?_, ?_⟩
  · rw [heq]
    exact visitedVia_nodup w hwi cs c0
  · intro e
    rw [heq]
    exact visitedVia_mem w hwi cs hcs c0 hc0 e
  · intro c hc e
    rw [heq, visitedVia_mem w hwi cs hcs c hc e, visitedVia_mem w hwi cs hcs c0 hc0 e]

/-- Claim C2 witness: the amended characterization instantiated at the
sample world with component list `[0]`: entity `0` is visited and the
visited list has no duplicates. -/
theorem C2_view_characterization_w :
    0 ∈ ViewEach C2world [0] ∧ (ViewEach C2world [0]).Nodup := by
  have h := C2_view_characterization C2world
    (DReach.add 5 (DReach.create DReach.empty (by decide)) (by decide)
      (by decide) (by decide))
    [0] (by decide) (by decide)
  exact ⟨(h.2.2.1 0).mpr (by decide), h.2.1⟩

/-- Claim C3: for an alive in-range identifier, under the disciplined
invariant, with the slot's generation not at the `uint32_t` wrap point and an
observer block installed for every held component (so every fired Removed
trigger is observable as a dispatched event), `DestroyEntity` clears the
signature, increments the slot generation by one, appends
`(newGen << 32) | index` to the free list, removes the entity from every
store, and the event list is exactly one Removed event per held component,
in ascending component-id order. -/
theorem C3_destroy_spec (w : World) (hw : DReach w) (e : Nat) (he : e < 2 ^ 64)
    (halive : w.IsAlive e = true)
    (hwrap : w.EntityGenerations.getD (eIndex e) 0 + 1 < 2 ^ 32)
    (hsig : ∀ c ∈ maskBits (w.EntitySignatures.getD (eIndex e) 0),
      w.SignalsInstalled c = true) :
    ((w.DestroyEntity e).1.EntitySignatures.getD (eIndex e) 0 = 0) ∧
    ((w.DestroyEntity e).1.EntityGenerations.getD (eIndex e) 0 =
      w.EntityGenerations.getD (eIndex e) 0 + 1) ∧
    ((w.DestroyEntity e).1.FreeEntities = w.FreeEntities ++
      [mkEntity (w.EntityGenerations.getD (eIndex e) 0 + 1) (eIndex e)]) ∧
    (∀ c, (storeOf (w.DestroyEntity e).1 c).Contains e = false) ∧
    ((w.DestroyEntity e).2 =
      (maskBits (w.EntitySignatures.getD (eIndex e) 0)).map
        (fun c => (c, ComponentEvent.Removed, e))) ∧
    (List.Pairwise (fun a b : Ev => a.1 < b.1) (w.DestroyEntity e).2) ∧
    (∀ c, ((c, ComponentEvent.Removed, e) ∈ (w.DestroyEntity e).2 ↔
      maskTest (w.EntitySignatures.getD (eIndex e) 0) c = true)) := by
  have hwi := hw.winv
  obtain ⟨hixlt, hgeneq⟩ := (IsAlive_iff w e).mp halive
  have hixg : eIndex e < w.EntityGenerations.length := by
    rw [hwi.lenGen]
    exact hixlt
  have hevs : (maskBits (w.EntitySignatures.getD (eIndex e) 0)).filterMap
      (fun i =>
        if w.OnRemovedTriggers.getD i false && w.SignalsInstalled i then
          some (i, ComponentEvent.Removed, e)
        else none) =
      (maskBits (w.EntitySignatures.getD (eIndex e) 0)).map
        (fun c => (c, ComponentEvent.Removed, e)) := by
    apply filterMap_eq_map_of
    intro c hcmem
    have hbit : maskTest (w.EntitySignatures.getD (eIndex e) 0) c = true := by
      rw [mem_maskBits] at hcmem
      unfold maskTest
      rw [if_pos hcmem.1]
      exact hcmem.2
    have htrig := (hwi.bitInstalled (eIndex e) c hixlt hbit).2
    have hsigc := hsig c hcmem
    rw [if_pos (by rw [htrig, hsigc]; rfl)]
  unfold World.DestroyEntity
  rw [if_pos halive]
  dsimp only
  rw [Nat.mod_eq_of_lt hwrap, hevs]
  refine ⟨getD_set_self _ _ _ _ hixlt, getD_set_self _ _ _ _ hixg, rfl, ?_, rfl, ?_, ?_⟩
  · intro c
    rw [storeOf_record_removeStores, removeStores_getD]
    by_cases hsel : c ∈ maskBits (w.EntitySignatures.getD (eIndex e) 0) ∧
        w.StoresByID.getD c false = true
    · rw [if_pos hsel]
      cases h2 : ((storeOf w c).Remove e).Contains e with
      | false => rfl
      | true =>
          have hce : (storeOf w c).Contains e = true := by
            refine (hwi.main c e he halive).mp ?_
            rw [mem_maskBits] at hsel
            unfold maskTest
            rw [if_pos hsel.1.1]
            exact hsel.1.2
          have := (SparseSet.Remove_Contains (hwi.storeOf_wf c) e e hce).mp h2
          exact absurd rfl this.2
    · rw [if_neg hsel]
      cases h2 : (storeOf w c).Contains e with
      | false => rfl
      | true =>
          exfalso
          apply hsel
          have hbit := (hwi.main c e he halive).mpr h2
          have hclt := maskTest_lt_256 _ _ hbit
          refine ⟨?_, (hwi.bitInstalled (eIndex e) c hixlt hbit).1⟩
          rw [mem_maskBits]
          refine ⟨hclt, ?_⟩
          unfold maskTest at hbit
          rw [if_pos hclt] at hbit
          exact hbit
  · rw [List.pairwise_map]
    exact maskBits_pairwise _
  · intro c
    constructor
    · intro hmem
      obtain ⟨a, hamem, haeq⟩ := List.mem_map.mp hmem
      have hac : a = c := congrArg Prod.fst haeq
      subst hac
      rw [mem_maskBits] at hamem
      unfold maskTest
      rw [if_pos hamem.1]
      exact hamem.2
    · intro hbit
      have hclt := maskTest_lt_256 _ _ hbit
      refine List.mem_map.mpr ⟨c, ?_, rfl⟩
      rw [mem_maskBits]
      refine ⟨hclt, ?_⟩
      unfold maskTest at hbit
      rw [if_pos hclt] at hbit
      exact hbit

/-- Claim C3 witness: the destruction contract instantiated at the sample
world whose entity `0` holds components `0` and `1` with observers
installed for both. -/
theorem C3_destroy_spec_w :
    ((C3world.DestroyEntity 0).1.EntitySignatures.getD (eIndex 0) 0 = 0) ∧
    ((C3world.DestroyEntity 0).1.EntityGenerations.getD (eIndex 0) 0 =
      C3world.EntityGenerations.getD (eIndex 0) 0 + 1) ∧
    ((storeOf (C3world.DestroyEntity 0).1 0).Contains 0 = false) ∧
    ((C3world.DestroyEntity 0).2 =
      (maskBits (C3world.EntitySignatures.getD (eIndex 0) 0)).map
        (fun c => (c, ComponentEvent.Removed, 0))) ∧
    ((1, ComponentEvent.Removed, 0) ∈ (C3world.DestroyEntity 0).2 ↔
      maskTest (C3world.EntitySignatures.getD (eIndex 0) 0) 1 = true) := by
  have h := C3_destroy_spec C3world
    (DReach.add 7
      (DReach.add 5
        (DReach.onEvent (DReach.onEvent (DReach.create DReach.empty (by decide))))
        (by decide) (by decide) (by decide))
      (by decide) (by decide) (by decide))
    0 (by decide) (by decide) (by decide) (by decide)
  exact ⟨h.1, h.2.1, h.2.2.2.1 0, h.2.2.2.2.1, h.2.2.2.2.2.2 1⟩

/-- Claim C4 (code bug): a component id of 256 is NOT rejected at insertion.
Starting from the reachable one-entity world, `AddComponent` with component
id 256 silently stores the value — the store contains the entity and
`GetComponent` returns the value — while `ComponentMask::Set` ignores the
out-of-range bit, so the signature stays empty and `HasComponent` is false:
exactly the silently-accepted inconsistent state the spec requires the
implementation to reject. -/
theorem C4_overflow_accepted :
    DReach (World.empty.CreateEntity).1 ∧
    (storeOf C4world 256).Contains 0 = true ∧
    C4world.GetComponent 256 0 = 7 ∧
    C4world.HasComponent 256 0 = false ∧
    C4world.EntitySignatures.getD 0 0 = 0 := by
  refine ⟨DReach.create DReach.empty (by decide), by decide, by decide,
    by decide, by decide⟩

/-- Claim C5: a sparse set holding an entry for `e` treats a stale
identifier `e'` (same index, different generation) as absent: `Remove e'`
returns the state unchanged and `Contains e'` is false.  This holds for an
arbitrary sparse-set state, with no well-formedness assumption. -/
theorem C5_stale_identifier {α : Type} [Inhabited α] (s : SparseSet α) (e e' : Nat)
    (hc : s.Contains e = true) (hidx : eIndex e' = eIndex e)
    (hgen : eGen e' ≠ eGen e) :
    s.Remove e' = s ∧ s.Contains e' = false := by
  obtain ⟨d, hsp, heq⟩ := (s.Contains_iff e).mp hc
  have hne : e ≠ e' := by
    intro hh
    exact hgen (by rw [hh])
  have hsp' : s.Sparse (eIndex e') = some d := by
    rw [hidx]
    exact hsp
  constructor
  · refine s.Remove_noop_stale e' d hsp' ?_
    rw [heq]
    exact hne
  · cases hcc : s.Contains e' with
    | false => rfl
    | true =>
        exfalso
        obtain ⟨d2, hsp2, heq2⟩ := (s.Contains_iff e').mp hcc
        rw [hsp'] at hsp2
        injection hsp2 with hd2
        subst hd2
        rw [heq] at heq2
        exact hne heq2

/-- Claim C5 witness: the singleton set holding identifier `1` (generation
0, index 1) rejects the stale identifier `2^32 + 1` (generation 1, same
index): removal is a no-op and containment is false. -/
theorem C5_stale_identifier_w :
    ((SparseSet.empty (α := Nat)).Insert 1 5).Remove (2 ^ 32 + 1) =
      (SparseSet.empty (α := Nat)).Insert 1 5 ∧
    ((SparseSet.empty (α := Nat)).Insert 1 5).Contains (2 ^ 32 + 1) = false :=
  C5_stale_identifier ((SparseSet.empty (α := Nat)).Insert 1 5) 1 (2 ^ 32 + 1)
    (by decide) (by decide) (by decide)

/-- Claim C6: after any sequence of Insert/Remove operations on an
initially empty sparse set, (a) the dense data and entity vectors have equal
length, (b) each dense row's sparse slot points back at it (and conversely
each occupied sparse slot points at a row carrying that index), and (c)
every stored identifier — every row reachable through a sparse slot — is
exactly the identifier passed to the Insert that last wrote that index. -/
theorem C6_sparse_invariants {α : Type} [Inhabited α] (ops : List (SOp α)) :
    ((applySOps (SparseSet.empty (α := α)) ops).DenseData.length =
      (applySOps (SparseSet.empty (α := α)) ops).DenseToEntity.length) ∧
    (∀ i, i < (applySOps (SparseSet.empty (α := α)) ops).DenseToEntity.length →
      (applySOps (SparseSet.empty (α := α)) ops).Sparse
        (eIndex ((applySOps (SparseSet.empty (α := α)) ops).DenseToEntity.getD i 0)) =
        some i) ∧
    (∀ j d, (applySOps (SparseSet.empty (α := α)) ops).Sparse j = some d →
      d < (applySOps (SparseSet.empty (α := α)) ops).DenseToEntity.length ∧
      eIndex ((applySOps (SparseSet.empty (α := α)) ops).DenseToEntity.getD d 0) = j) ∧
    (∀ i, i < (applySOps (SparseSet.empty (α := α)) ops).DenseToEntity.length →
      lastInsertAt ops
        (eIndex ((applySOps (SparseSet.empty (α := α)) ops).DenseToEntity.getD i 0)) =
        some ((applySOps (SparseSet.empty (α := α)) ops).DenseToEntity.getD i 0)) := by
  have hwf := WF_applySOps ops (SparseSet.WF.empty (α := α))
  refine ⟨hwf.lenEq, hwf.rowBack, hwf.sparseValid, ?_⟩
  intro i hi
  exact rowFaithful ops _ i (hwf.rowBack i hi)

/-- Claim C7: adding a component the entity already holds overwrites the
stored value, keeps the entity in the store, and — with an observer block
installed for the component — emits exactly one `Added` event and no
`Removed` event. -/
theorem C7_overwrite (w : World) (c e v : Nat) (hwf : ( storeOf w c).WF)
    (hc : (storeOf w c).Contains e = true) (hsig : w.SignalsInstalled c = true) :
    ((w.AddComponent c e v).2 = [(c, ComponentEvent.Added, e)]) ∧
    ((storeOf (w.AddComponent c e v).1 c).Get e = v) ∧
    ((storeOf (w.AddComponent c e v).1 c).Contains e = true) ∧
    ((storeOf (w.AddComponent c e v).1 c).Size = (storeOf w c).Size) ∧
    (∀ ev ∈ (w.AddComponent c e v).2, ev.2.1 = ComponentEvent.Added) := by
  obtain ⟨d, hsp, _⟩ := ((storeOf w c).Contains_iff e).mp hc
  unfold World.AddComponent
  dsimp only
  rw [if_pos hsig]
  refine ⟨rfl, ?_, ?_, ?_, ?_⟩
  · rw [storeOf_record_setStore, setStore_getD_self]
    exact SparseSet.Insert_Get hwf e v
  · rw [storeOf_record_setStore, setStore_getD_self]
    exact (SparseSet.Insert_Contains hwf e e v).mpr (Or.inl rfl)
  · rw [storeOf_record_setStore, setStore_getD_self,
      SparseSet.Insert_eq_overwrite _ _ _ d hsp]
    unfold SparseSet.Size
    dsimp only
    rw [List.length_set]
  · intro ev hev
    rw [List.mem_singleton] at hev
    subst hev
    rfl

/-- Claim C7 witness: re-adding component `0` to entity `0` (which already
holds it with value 5, observers installed) in the sample world: the event
list is exactly one `Added`, and the stored value becomes 9. -/
theorem C7_overwrite_w :
    ((C7world.AddComponent 0 0 9).2 = [(0, ComponentEvent.Added, 0)]) ∧
    ((storeOf (C7world.AddComponent 0 0 9).1 0).Get 0 = 9) ∧
    ((storeOf (C7world.AddComponent 0 0 9).1 0).Contains 0 = true) ∧
    ((storeOf (C7world.AddComponent 0 0 9).1 0).Size = (storeOf C7world 0).Size) := by
  have hwf : (storeOf C7world 0).WF :=
    WInv.storeOf_wf
      (DReach.winv
        (DReach.add 5 (DReach.onEvent (DReach.create DReach.empty (by decide)))
          (by decide) (by decide) (by decide)))
      0
  have h := C7_overwrite C7world 0 0 9 hwf (by decide) (by decide)
  exact ⟨h.1, h.2.1, h.2.2.1, h.2.2.2.1⟩

/-- Claim C8: for a dependency graph with distinct node names, `RunGraph`
fails (raises the cycle error, modelled as `none`) exactly when the graph
has a dependency cycle or a node lists a dependency that names no node;
the failure condition is bit-exact: it is detected precisely when the sum
of the Kahn batch sizes falls short of the node count; and a failing call
executes no system. -/
theorem C8_cycle_detection (g : SGraph) (hk : (keys g).Nodup) :
    (RunGraph g = none ↔ (HasMissingDep g ∨ HasCycle g)) ∧
    (RunGraph g = none ↔
      ((RebuildGraph g).map List.length).sum < (keys g).length) ∧
    (RunGraph g = none → executedSystems g = []) := by
  have hiff := batch_sum_iff g hk
  have hdef : RunGraph g = none ↔
      ((RebuildGraph g).map List.length).sum < (keys g).length := by
    unfold RunGraph
    split
    · rename_i hcond
      simpa using hcond
    · rename_i hcond
      constructor
      · intro hh
        exact Option.noConfusion hh
      · intro hh
        exact absurd hh (by simpa using hcond)
  refine ⟨hdef.trans hiff, hdef, ?_⟩
  intro hnone
  unfold executedSystems
  rw [hnone]

/-- Claim C8 witness: the two-node cycle `0 ↦ [1], 1 ↦ [0]` makes
`RunGraph` fail, the failure is classified as a missing dependency or a
cycle, and no system is executed. -/
theorem C8_cycle_detection_w :
    RunGraph [(0, [1]), (1, [0])] = none ∧
    (HasMissingDep [(0, [1]), (1, [0])] ∨ HasCycle [(0, [1]), (1, [0])]) ∧
    executedSystems [(0, [1]), (1, [0])] = [] := by
  have h := C8_cycle_detection [(0, [1]), (1, [0])] (by decide)
  have hnone : RunGraph [(0, [1]), (1, [0])] = none := by decide
  exact ⟨hnone, h.1.mp hnone, h.2.2 hnone⟩

/-- Claim C9: `HasComponent` reads only the index half of the identifier:
two identifiers with the same low 32 bits get the same answer for every
component id, whatever their generations. -/
theorem C9_hasComponent_index_only (w : World) (c e e2 : Nat)
    (h : eIndex e = eIndex e2) :
    w.HasComponent c e = w.HasComponent c e2 := by
  unfold World.HasComponent
  rw [h]

/-- Claim C9 witness: in the sample world where slot 0 is held by the live
generation-0 entity with component `0`, the stale identifier `2^32`
(generation 1, same index) gets the same — positive — `HasComponent`
answer. -/
theorem C9_hasComponent_index_only_w :
    ((World.empty.CreateEntity).1.AddComponent 0 0 5).1.HasComponent 0 (2 ^ 32) =
      ((World.empty.CreateEntity).1.AddComponent 0 0 5).1.HasComponent 0 0 ∧
    ((World.empty.CreateEntity).1.AddComponent 0 0 5).1.HasComponent 0 0 = true :=
  ⟨C9_hasComponent_index_only ((World.empty.CreateEntity).1.AddComponent 0 0 5).1
    0 (2 ^ 32) 0 (by decide), by decide⟩

/-- Claim C10: `CreateEntity(id)` with an index at or beyond the current
entity-sequence length grows both per-entity vectors to `index + 1` with
zero-filled generations (assuming the standing length equality and that
free-list entries point below the old length).  Afterwards every
intermediate slot `k` (old length ≤ k < index) answers `IsAlive` as true
for the generation-0 identifier `k`, although no create call returned it
and no free-list entry covers it. -/
theorem C10_createWithID_resurrects (w : World) (id : Nat)
    (hlen : w.EntityGenerations.length = w.EntitySignatures.length)
    (hfree : ∀ f ∈ w.FreeEntities, eIndex f < w.EntitySignatures.length)
    (hidx : w.EntitySignatures.length ≤ eIndex id) :
    ((w.CreateEntityWithID id).EntitySignatures.length = eIndex id + 1) ∧
    ((w.CreateEntityWithID id).EntityGenerations.length = eIndex id + 1) ∧
    (∀ k, w.EntitySignatures.length ≤ k → k < eIndex id →
      (w.CreateEntityWithID id).EntityGenerations.getD k 0 = 0) ∧
    (∀ k, w.EntitySignatures.length ≤ k → k < eIndex id →
      (w.CreateEntityWithID id).IsAlive k = true) ∧
    (∀ k, w.EntitySignatures.length ≤ k →
      ∀ f ∈ (w.CreateEntityWithID id).FreeEntities, eIndex f ≠ k) := by
  have hi32 : eIndex id < 2 ^ 32 := eIndex_lt id
  have hgrow : w.CreateEntityWithID id =
      (if ({ w with
              EntitySignatures := resizeD w.EntitySignatures (eIndex id + 1) 0
              EntityGenerations :=
                resizeD w.EntityGenerations (eIndex id + 1) 0 } : World).IsAlive id
       then { w with
              EntitySignatures := resizeD w.EntitySignatures (eIndex id + 1) 0
              EntityGenerations := resizeD w.EntityGenerations (eIndex id + 1) 0 }
       else
         { w with
           EntitySignatures :=
             (resizeD w.EntitySignatures (eIndex id + 1) 0).set (eIndex id) 0
           EntityGenerations :=
             (resizeD w.EntityGenerations (eIndex id + 1) 0).set (eIndex id) (eGen id)
           FreeEntities :=
             w.FreeEntities.filter (fun eid => !(eIndex eid == eIndex id)) }) := by
    unfold World.CreateEntityWithID
    rw [if_pos hidx]
  have hlsig : (resizeD w.EntitySignatures (eIndex id + 1) 0).length = eIndex id + 1 := by
    rw [resizeD_length]
    omega
  have hlgen : (resizeD w.EntityGenerations (eIndex id + 1) 0).length = eIndex id + 1 := by
    rw [resizeD_length]
    omega
  have hpadgen : ∀ k, w.EntitySignatures.length ≤ k → k < eIndex id + 1 →
      (resizeD w.EntityGenerations (eIndex id + 1) 0).getD k 0 = 0 := by
    intro k hk1 hk2
    exact getD_resizeD_pad _ _ _ _ (by omega) hk2
  rw [hgrow]
  by_cases halive : ({ w with
      EntitySignatures := resizeD w.EntitySignatures (eIndex id + 1) 0
      EntityGenerations :=
        resizeD w.EntityGenerations (eIndex id + 1) 0 } : World).IsAlive id = true
  · rw [if_pos halive]
    refine ⟨hlsig, hlgen, ?_, ?_, ?_⟩
    · intro k hk1 hk2
      exact hpadgen k hk1 (by omega)
    · intro k hk1 hk2
      rw [IsAlive_iff]
      dsimp only
      rw [eIndex_small k (by omega)]
      refine ⟨by omega, ?_⟩
      rw [hpadgen k hk1 (by omega), eGen_small k (by omega)]
    · intro k hk1 f hf
      have := hfree f hf
      omega
  · rw [if_neg halive]
    refine ⟨?_, ?_, ?_, ?_, ?_⟩
    · dsimp only
      rw [List.length_set]
      exact hlsig
    · dsimp only
      rw [List.length_set]
      exact hlgen
    · intro k hk1 hk2
      dsimp only
      rw [getD_set_ne _ _ _ _ _ (by omega)]
      exact hpadgen k hk1 (by omega)
    · intro k hk1 hk2
      rw [IsAlive_iff]
      dsimp only
      rw [eIndex_small k (by omega), List.length_set]
      refine ⟨by omega, ?_⟩
      rw [getD_set_ne _ _ _ _ _ (by omega), hpadgen k hk1 (by omega),
        eGen_small k (by omega)]
    · intro k hk1 f hf
      dsimp only at hf
      have := hfree f (List.mem_of_mem_filter hf)
      omega

/-- Claim C10 witness: in the one-entity world, `CreateEntity` with
identifier `(3 << 32) | 5` grows the vectors to length 6, leaves slot 2 at
generation 0, and the phantom identifier `2` answers `IsAlive` as true. -/
theorem C10_createWithID_resurrects_w :
    ((C10world.CreateEntityWithID (mkEntity 3 5)).EntitySignatures.length =
      eIndex (mkEntity 3 5) + 1) ∧
    ((C10world.CreateEntityWithID (mkEntity 3 5)).EntityGenerations.getD 2 0 = 0) ∧
    ((C10world.CreateEntityWithID (mkEntity 3 5)).IsAlive 2 = true) := by
  have h := C10_createWithID_resurrects C10world (mkEntity 3 5) (by decide)
    (by decide) (by decide)
  exact ⟨h.1, h.2.2.1 2 (by decide) (by decide), h.2.2.2.1 2 (by decide) (by decide)⟩
